import Mathlib

/-!
Verification development for the dk_headers library: a fixed-capacity
vector (`dk_static_vector.hpp`), a sorted-array map (`dk_flat_map.hpp`)
and a 32-bit PCG pseudo-random generator (`dk_pcg32.h`).

Machine integers are modelled as `Nat` with explicit reduction modulo
`2 ^ 64` (respectively `2 ^ 32`) wherever the C code relies on unsigned
wrap-around.
-/

/-! ## PCG32 generator (`dk_pcg32.h`) -/

/-- Modulus of 64-bit unsigned arithmetic. -/
def U64 : Nat := 2 ^ 64

/-- Modulus of 32-bit unsigned arithmetic. -/
def U32 : Nat := 2 ^ 32

/-- Multiplier `DK_PCG32_MUL = 0x5851F42D4C957F2D` (dk_pcg32.h line 148). -/
def DK_PCG32_MUL : Nat := 0x5851F42D4C957F2D

/-- Increment `DK_PCG32_INC = 0x14057B7EF767814F` (dk_pcg32.h line 149). -/
def DK_PCG32_INC : Nat := 0x14057B7EF767814F

/-- State transition of `dk_pcg32_get_u32` (dk_pcg32.h line 165):
`pcg->state = state * DK_PCG32_MUL + DK_PCG32_INC` in `uint64_t` arithmetic. -/
def pcg32_advance (s : Nat) : Nat :=
  (s * DK_PCG32_MUL + DK_PCG32_INC) % U64

/-- Output function of `dk_pcg32_get_u32` (dk_pcg32.h lines 167-170), the
XSH-RR style permutation computed from the pre-advance state:
`value = (uint32_t)((state ^ (state >> 18)) >> 27)`, `rot = state >> 59`,
result `(value >> rot) | (value << ((-rot + 1u) & 31))` in `uint32_t`
arithmetic. -/
def pcg32_output (s : Nat) : Nat :=
  let value : Nat := ((s ^^^ (s >>> 18)) >>> 27) % U32
  let rot : Nat := s >>> 59
  (value >>> rot) ||| ((value <<< (((U32 - rot) + 1) % U32 % 32)) % U32)

/-- Combined `dk_pcg32_get_u32` (dk_pcg32.h lines 163-171): returns the
output computed from the old state and the advanced state. -/
def dk_pcg32_get_u32 (s : Nat) : Nat × Nat :=
  (pcg32_output s, pcg32_advance s)

/-- Seeding procedure `dk_pcg32_seed` (dk_pcg32.h lines 151-156): state is
zeroed, advanced once, the seed is added (with 64-bit wrap-around), and the
state is advanced again.  The returned value is the final internal state. -/
def dk_pcg32_seed (seed : Nat) : Nat :=
  let s0 : Nat := 0
  let s1 : Nat := pcg32_advance s0
  let s2 : Nat := (s1 + seed) % U64
  pcg32_advance s2

theorem U64_pos : 0 < U64 := by decide

theorem DK_PCG32_INC_lt : DK_PCG32_INC < U64 := by decide

/-- Multiplier is odd, hence invertible modulo `2 ^ 64`. -/
theorem DK_PCG32_MUL_coprime : Nat.Coprime DK_PCG32_MUL U64 := by
  have h2 : Nat.Coprime DK_PCG32_MUL 2 := by
    rw [Nat.coprime_two_right, Nat.odd_iff]
    decide
  exact h2.pow_right 64

/-- helper: the seeded state in closed form. -/
theorem dk_pcg32_seed_eq (seed : Nat) :
    dk_pcg32_seed seed = ((DK_PCG32_INC + seed) % U64 * DK_PCG32_MUL + DK_PCG32_INC) % U64 := by
  simp [dk_pcg32_seed, pcg32_advance, Nat.mod_eq_of_lt DK_PCG32_INC_lt]

/-- C8: `dk_pcg32_seed` performs two warm-up advances bracketing the addition
of the seed: starting from state 0 it advances once, adds the seed, and
advances again, leaving the state at
`((0 * MUL + INC) + seed) * MUL + INC mod 2^64`; moreover this mapping from
64-bit seed to internal state is injective, so distinct seeds produce
distinct internal states. -/
theorem dk_pcg32_seed_closed_form_and_injective :
    (∀ seed : Nat,
      dk_pcg32_seed seed =
        ((0 * DK_PCG32_MUL + DK_PCG32_INC + seed) * DK_PCG32_MUL + DK_PCG32_INC) % U64) ∧
    (∀ s1 s2 : Nat, s1 < U64 → s2 < U64 →
      dk_pcg32_seed s1 = dk_pcg32_seed s2 → s1 = s2) := by
  have hmul : ∀ seed : Nat,
      (DK_PCG32_INC + seed) % U64 * DK_PCG32_MUL + DK_PCG32_INC ≡
        (DK_PCG32_INC + seed) * DK_PCG32_MUL + DK_PCG32_INC [MOD U64] :=
    fun seed => Nat.ModEq.add_right _ ((Nat.mod_modEq _ _).mul_right _)
  constructor
  · intro seed
    rw [dk_pcg32_seed_eq, Nat.zero_mul, Nat.zero_add]
    exact hmul seed
  · intro s1 s2 h1 h2 heq
    rw [dk_pcg32_seed_eq, dk_pcg32_seed_eq] at heq
    have hco : Nat.gcd U64 DK_PCG32_MUL = 1 := DK_PCG32_MUL_coprime.symm
    have step1 : (DK_PCG32_INC + s1) % U64 * DK_PCG32_MUL ≡
        (DK_PCG32_INC + s2) % U64 * DK_PCG32_MUL [MOD U64] :=
      Nat.ModEq.add_right_cancel' _ heq
    have step2 : (DK_PCG32_INC + s1) % U64 ≡ (DK_PCG32_INC + s2) % U64 [MOD U64] :=
      Nat.ModEq.cancel_right_of_coprime hco step1
    have step3 : DK_PCG32_INC + s1 ≡ DK_PCG32_INC + s2 [MOD U64] :=
      ((Nat.mod_modEq _ _).symm.trans step2).trans (Nat.mod_modEq _ _)
    have step4 : s1 ≡ s2 [MOD U64] := Nat.ModEq.add_left_cancel' _ step3
    calc s1 = s1 % U64 := (Nat.mod_eq_of_lt h1).symm
      _ = s2 % U64 := step4
      _ = s2 := Nat.mod_eq_of_lt h2

/-- Witness for C8 at concrete seeds. -/
theorem dk_pcg32_seed_closed_form_and_injective_witness :
    dk_pcg32_seed 7 =
      ((0 * DK_PCG32_MUL + DK_PCG32_INC + 7) * DK_PCG32_MUL + DK_PCG32_INC) % U64 ∧
    (5 : Nat) = 5 :=
  ⟨dk_pcg32_seed_closed_form_and_injective.1 7,
   dk_pcg32_seed_closed_form_and_injective.2 5 5 (by decide) (by decide) rfl⟩

/-- Iterated state advance: the generator state after `n` calls to
`dk_pcg32_get_u32`. -/
def pcg32_advanceN (s n : Nat) : Nat := pcg32_advance^[n] s

/-- Raw 32-bit output produced by the `n`-th call to `dk_pcg32_get_u32`
(0-based) starting from state `s`. -/
def pcg32_rawAt (s n : Nat) : Nat := pcg32_output (pcg32_advanceN s n)

theorem pcg32_advanceN_zero (s : Nat) : pcg32_advanceN s 0 = s := rfl

theorem pcg32_advanceN_succ (s n : Nat) :
    pcg32_advanceN s (n + 1) = pcg32_advanceN (pcg32_advance s) n :=
  Function.iterate_succ_apply pcg32_advance n s

theorem pcg32_rawAt_zero (s : Nat) : pcg32_rawAt s 0 = pcg32_output s := rfl

theorem pcg32_rawAt_succ (s n : Nat) :
    pcg32_rawAt s (n + 1) = pcg32_rawAt (pcg32_advance s) n :=
  congrArg pcg32_output (pcg32_advanceN_succ s n)

/-- Value `bounds = max - min` computed in `uint32_t` arithmetic
(dk_pcg32.h line 188). -/
def rangeBounds (mn mx : Nat) : Nat := ((U32 + mx) - mn) % U32

/-- Value `threshold = -(int32_t)bounds % bounds` (dk_pcg32.h line 189):
the negation is performed in 32-bit two-complement arithmetic and the
remainder in `uint32_t` arithmetic. -/
def rangeThreshold (mn mx : Nat) : Nat :=
  ((U32 - rangeBounds mn mx) % U32) % rangeBounds mn mx

/-- Rejection loop of `dk_pcg32_get_range_u32` (dk_pcg32.h lines 190-195),
with explicit fuel standing for the unbounded `while (1)`: each round draws
`r = dk_pcg32_get_u32(pcg)` and returns `min + r % bounds` as soon as
`r >= threshold`. -/
def pcg32_range_loop (mn bounds threshold : Nat) : Nat → Nat → Option (Nat × Nat)
  | _, 0 => none
  | s, Nat.succ fuel =>
    if threshold ≤ pcg32_output s then
      some (mn + pcg32_output s % bounds, pcg32_advance s)
    else
      pcg32_range_loop mn bounds threshold (pcg32_advance s) fuel

/-- Model of `dk_pcg32_get_range_u32` (dk_pcg32.h lines 187-196). -/
def dk_pcg32_get_range_u32 (s mn mx fuel : Nat) : Option (Nat × Nat) :=
  pcg32_range_loop mn (rangeBounds mn mx) (rangeThreshold mn mx) s fuel

/-- helper: characterization of the rejection loop in terms of the stream of
raw outputs. -/
theorem pcg32_range_loop_spec (mn bounds threshold : Nat) :
    ∀ (fuel s v s2 : Nat),
      pcg32_range_loop mn bounds threshold s fuel = some (v, s2) →
      ∃ n, n < fuel ∧ (∀ m, m < n → pcg32_rawAt s m < threshold) ∧
        threshold ≤ pcg32_rawAt s n ∧ v = mn + pcg32_rawAt s n % bounds ∧
        s2 = pcg32_advanceN s (n + 1) := by
  intro fuel
  induction fuel with
  | zero => intro s v s2 h; simp [pcg32_range_loop] at h
  | succ fuel ih =>
    intro s v s2 h
    rw [pcg32_range_loop] at h
    by_cases hacc : threshold ≤ pcg32_output s
    · rw [if_pos hacc] at h
      have h2 := Option.some.inj h
      have hv : v = mn + pcg32_output s % bounds := (congrArg Prod.fst h2).symm
      have hs : s2 = pcg32_advance s := (congrArg Prod.snd h2).symm
      refine ⟨0, Nat.succ_pos _, fun m hm => absurd hm (Nat.not_lt_zero m), ?_, ?_, ?_⟩
      · rw [pcg32_rawAt_zero]; exact hacc
      · rw [pcg32_rawAt_zero]; exact hv
      · rw [pcg32_advanceN_succ, pcg32_advanceN_zero]; exact hs
    · rw [if_neg hacc] at h
      obtain ⟨n, hn, hrej, hok, hv, hs⟩ := ih (pcg32_advance s) v s2 h
      refine ⟨n + 1, Nat.succ_lt_succ hn, ?_, ?_, ?_, ?_⟩
      · intro m hm
        match m with
        | 0 => rw [pcg32_rawAt_zero]; exact Nat.lt_of_not_le hacc
        | Nat.succ m =>
          rw [pcg32_rawAt_succ]; exact hrej m (Nat.lt_of_succ_lt_succ hm)
      · rw [pcg32_rawAt_succ]; exact hok
      · rw [pcg32_rawAt_succ]; exact hv
      · rw [pcg32_advanceN_succ]; exact hs

/-- helper: number of naturals below `n` with residue `c` modulo `b`. -/
theorem filter_mod_card_range (b : Nat) (hb : 0 < b) (c : Nat) (hc : c < b) :
    ∀ n : Nat, ((Finset.range n).filter (fun r => r % b = c)).card
      = n / b + (if c < n % b then 1 else 0) := by
  intro n
  induction n with
  | zero => simp
  | succ n ih =>
    have hdm := Nat.div_add_mod n b
    have hlt : n % b < b := Nat.mod_lt n hb
    have hnotmem : n ∉ (Finset.range n).filter (fun r => r % b = c) := by
      intro hmem
      exact absurd (Finset.mem_range.mp (Finset.mem_of_mem_filter n hmem)) (Nat.lt_irrefl n)
    rw [Finset.range_succ, Finset.filter_insert]
    rcases Nat.lt_or_ge (n % b + 1) b with hB | hA
    · have h1 : n + 1 = b * (n / b) + (n % b + 1) := by omega
      have hmod : (n + 1) % b = n % b + 1 := by
        rw [h1, Nat.mul_add_mod, Nat.mod_eq_of_lt hB]
      have hdiv : (n + 1) / b = n / b := by
        rw [h1, Nat.mul_add_div hb, Nat.div_eq_of_lt hB, Nat.add_zero]
      by_cases hnc : n % b = c
      · rw [if_pos hnc, Finset.card_insert_of_not_mem hnotmem, ih, hmod, hdiv]
        split_ifs <;> omega
      · rw [if_neg hnc, ih, hmod, hdiv]
        split_ifs <;> omega
    · have hA2 : n % b + 1 = b := by omega
      have h1 : n + 1 = b * (n / b + 1) := by rw [Nat.mul_add, Nat.mul_one]; omega
      have hmod : (n + 1) % b = 0 := by rw [h1]; exact Nat.mul_mod_right _ _
      have hdiv : (n + 1) / b = n / b + 1 := by rw [h1, Nat.mul_div_cancel_left _ hb]
      by_cases hnc : n % b = c
      · rw [if_pos hnc, Finset.card_insert_of_not_mem hnotmem, ih, hmod, hdiv]
        split_ifs <;> omega
      · rw [if_neg hnc, ih, hmod, hdiv]
        split_ifs <;> omega

/-- helper: the residue count over the half-open interval `[t, n)`. -/
theorem filter_mod_card_Ico (b : Nat) (hb : 0 < b) (c : Nat) (hc : c < b) (t n : Nat) (htn : t ≤ n) :
    ((Finset.Ico t n).filter (fun r => r % b = c)).card
      = (n / b + (if c < n % b then 1 else 0)) - (t / b + (if c < t % b then 1 else 0)) := by
  have hsplit : Finset.range t ∪ Finset.Ico t n = Finset.range n := by
    rw [Finset.range_eq_Ico]
    exact Finset.Ico_union_Ico_eq_Ico (Nat.zero_le t) htn
  have hdisj : Disjoint (Finset.range t) (Finset.Ico t n) := by
    rw [Finset.range_eq_Ico]
    exact Finset.Ico_disjoint_Ico_consecutive 0 t n
  have hcard : ((Finset.range t).filter (fun r => r % b = c)).card
      + ((Finset.Ico t n).filter (fun r => r % b = c)).card
      = ((Finset.range n).filter (fun r => r % b = c)).card := by
    rw [← hsplit, Finset.filter_union,
      Finset.card_union_of_disjoint (Finset.disjoint_filter_filter hdisj)]
  rw [filter_mod_card_range b hb c hc n, filter_mod_card_range b hb c hc t] at hcard
  split_ifs at hcard ⊢ <;> omega

/-- C9: on bounds `min < max`, `dk_pcg32_get_range_u32` uses rejection
sampling with threshold `(2^32 - (max - min)) mod (max - min)`; whenever the
loop returns, it returns `min + (r mod (max - min))` for the first raw
32-bit output `r` at or above the threshold, the result lies in
`[min, max)`, and each value of that interval is produced by exactly
`floor(2^32 / (max - min))` accepted raw outputs, removing modulo bias. -/
theorem dk_pcg32_get_range_u32_spec (mn mx s fuel v s2 : Nat)
    (hmn : mn < mx) (hmx : mx < U32)
    (hrun : dk_pcg32_get_range_u32 s mn mx fuel = some (v, s2)) :
    rangeBounds mn mx = mx - mn ∧
    rangeThreshold mn mx = (U32 - (mx - mn)) % (mx - mn) ∧
    (∃ n, n < fuel ∧
      (∀ m, m < n → pcg32_rawAt s m < rangeThreshold mn mx) ∧
      rangeThreshold mn mx ≤ pcg32_rawAt s n ∧
      v = mn + pcg32_rawAt s n % (mx - mn) ∧
      s2 = pcg32_advanceN s (n + 1)) ∧
    (mn ≤ v ∧ v < mx) ∧
    (∀ w, mn ≤ w → w < mx →
      ((Finset.Ico (rangeThreshold mn mx) U32).filter
          (fun r => mn + r % (mx - mn) = w)).card = U32 / (mx - mn)) := by
  have hU : 0 < U32 := by decide
  have hb0 : 0 < mx - mn := by omega
  have hble : mx - mn ≤ U32 := by omega
  have hBeq : rangeBounds mn mx = mx - mn := by
    have h1 : U32 + mx - mn = U32 + (mx - mn) := by omega
    rw [rangeBounds, h1, Nat.add_mod_left]
    exact Nat.mod_eq_of_lt (by omega)
  have hTeq : rangeThreshold mn mx = (U32 - (mx - mn)) % (mx - mn) := by
    rw [rangeThreshold, hBeq, Nat.mod_eq_of_lt (show U32 - (mx - mn) < U32 by omega)]
  have hTmod : rangeThreshold mn mx = U32 % (mx - mn) := by
    rw [hTeq]
    have h3 : U32 - (mx - mn) + (mx - mn) = U32 := by omega
    calc (U32 - (mx - mn)) % (mx - mn)
        = (U32 - (mx - mn) + (mx - mn)) % (mx - mn) := (Nat.add_mod_right _ _).symm
      _ = U32 % (mx - mn) := by rw [h3]
  have hTlt : rangeThreshold mn mx < mx - mn := by
    rw [hTmod]; exact Nat.mod_lt _ hb0
  have hTleU : rangeThreshold mn mx ≤ U32 := by omega
  obtain ⟨n, hn, hrej, hok, hv, hs⟩ :=
    pcg32_range_loop_spec mn (rangeBounds mn mx) (rangeThreshold mn mx) fuel s v s2 hrun
  rw [hBeq] at hv
  have hmodlt : pcg32_rawAt s n % (mx - mn) < mx - mn := Nat.mod_lt _ hb0
  refine ⟨hBeq, hTeq, ⟨n, hn, hrej, hok, hv, hs⟩, ⟨by omega, by omega⟩, ?_⟩
  intro w hw1 hw2
  have hc : w - mn < mx - mn := by omega
  have hfe : (Finset.Ico (rangeThreshold mn mx) U32).filter
        (fun r => mn + r % (mx - mn) = w)
      = (Finset.Ico (rangeThreshold mn mx) U32).filter
        (fun r => r % (mx - mn) = w - mn) :=
    Finset.filter_congr (fun x _ => by omega)
  rw [hfe, filter_mod_card_Ico (mx - mn) hb0 (w - mn) hc (rangeThreshold mn mx) U32 hTleU]
  rw [Nat.div_eq_of_lt hTlt, Nat.mod_eq_of_lt hTlt, ← hTmod, Nat.zero_add,
    Nat.add_sub_cancel]

/-- Witness for C9 at `min = 0`, `max = 1`, state 0, fuel 1. -/
theorem dk_pcg32_get_range_u32_spec_witness :
    (0 : Nat) < 1 ∧ (1 : Nat) < U32 ∧
    ((0 : Nat) ≤ 0 ∧ (0 : Nat) < 1) :=
  ⟨by decide, by decide,
   (dk_pcg32_get_range_u32_spec 0 1 0 1 0 DK_PCG32_INC (by decide) (by decide)
     (by decide)).2.2.2.1⟩

/-! ## Fixed-capacity vector (`dk_static_vector.hpp`)

The storage is modelled slot by slot: `m_buffer` is a list of `N` cells,
where `some v` is a slot holding a live (constructed) object with value `v`
and `none` is a raw (destroyed or never-constructed) slot.  Placement-new
writes `some v` into a cell, a destructor call writes `none`, and a C++
move leaves the moved-from cell constructed, exactly as in the source.  We
model the general case of a non-trivially-destructible element type, so
every destructor call of the source is visible as a `none` write.
Operations guarded by a `DK_ASSERT` precondition return `Option`: `none`
means the assertion fired. -/

structure static_vector (α : Type) (N : Nat) where
  m_buffer : List (Option α)
  m_size : Nat
deriving DecidableEq

namespace static_vector

/-- Loop of the count constructors and of `resize` (for example lines
78-80): placement-construct `n` copies of `v` into consecutive slots
starting at `i`. -/
def constructLoop (v : α) : List (Option α) → Nat → Nat → List (Option α)
  | buf, _, 0 => buf
  | buf, i, n + 1 => constructLoop v (buf.set i (some v)) (i + 1) n

/-- Loop of the initializer-list constructor (lines 96-99): construct the
given values into consecutive slots starting at `i`. -/
def constructList : List (Option α) → Nat → List α → List (Option α)
  | buf, _, [] => buf
  | buf, i, x :: xs => constructList (buf.set i (some x)) (i + 1) xs

/-- Destructor loop of `destruct_and_downsize` (lines 451-455): destroy `n`
consecutive slots starting at `i`. -/
def destroyLoop : List (Option α) → Nat → Nat → List (Option α)
  | buf, _, 0 => buf
  | buf, i, n + 1 => destroyLoop (buf.set i none) (i + 1) n

/-- Right-shift loop of `emplace` (lines 344-346): for `j` down to `i + 1`,
move-assign slot `j - 1` into slot `j`. -/
def shiftLoop (i : Nat) : List (Option α) → Nat → List (Option α)
  | buf, 0 => buf
  | buf, j + 1 =>
    if i < j + 1 then shiftLoop i (buf.set (j + 1) (buf.getD j none)) j else buf

/-- Model of `std::move(first, last, d_first)` as used by `erase`
(line 382, line 402): copy `n` slots starting at `first` to consecutive
slots starting at `d` (the moved-from slots stay constructed). -/
def moveLeftLoop : List (Option α) → Nat → Nat → Nat → List (Option α)
  | buf, _, _, 0 => buf
  | buf, first, d, n + 1 =>
    moveLeftLoop (buf.set d (buf.getD first none)) (first + 1) (d + 1) n

/-- Pairwise `std::swap` loop of `swap` (lines 154-156) over `n` slots
starting at `i`. -/
def swapLoop : List (Option α) → List (Option α) → Nat → Nat →
    List (Option α) × List (Option α)
  | x, y, _, 0 => (x, y)
  | x, y, i, n + 1 => swapLoop (x.set i (y.getD i none)) (y.set i (x.getD i none)) (i + 1) n

/-- Tail loop of `swap` (lines 159-167): move-construct `n` slots of `src`
starting at `i` into the same slots of `dst`.  The moved-from slots of
`src` are left untouched, exactly as in the source, which performs no
destructor call here. -/
def copyRange : List (Option α) → List (Option α) → Nat → Nat → List (Option α)
  | dst, _, _, 0 => dst
  | dst, src, i, n + 1 => copyRange (dst.set i (src.getD i none)) src (i + 1) n

/-- Default constructor (lines 70-72): zero-initialized buffer, no live
slot, `m_size = 0`. -/
def mkEmpty (α : Type) (N : Nat) : static_vector α N :=
  ⟨List.replicate N none, 0⟩

/-- Count constructor `static_vector(size_type count)` (lines 74-81):
`m_size` is set to `count` and `count` elements are default-constructed.
The source performs no capacity check here. -/
def ofCount (α : Type) [Inhabited α] (N count : Nat) : static_vector α N :=
  ⟨constructLoop default (List.replicate N none) 0 count, count⟩

/-- Count-value constructor (lines 83-90): `count` copy-constructed copies
of `v`.  The source performs no capacity check here. -/
def ofCountVal (N count : Nat) (v : α) : static_vector α N :=
  ⟨constructLoop v (List.replicate N none) 0 count, count⟩

/-- Initializer-list constructor (lines 92-100).  The source performs no
capacity check here. -/
def ofList (N : Nat) (l : List α) : static_vector α N :=
  ⟨constructList (List.replicate N none) 0 l, l.length⟩

/-- Canonical well-formed state holding exactly the values `c`. -/
def canonical (N : Nat) (c : List α) : static_vector α N :=
  ⟨c.map some ++ List.replicate (N - c.length) none, c.length⟩

/-- Representation predicate: `s` is the well-formed state with live
contents `c`. -/
def repOk (s : static_vector α N) (c : List α) : Prop :=
  s = canonical N c ∧ c.length ≤ N

instance {α : Type} [DecidableEq α] {N : Nat} (s : static_vector α N) (c : List α) :
    Decidable (repOk s c) :=
  inferInstanceAs (Decidable (_ ∧ _))

/-- Live contents of the vector, in slot order. -/
def contents (s : static_vector α N) : List α :=
  (s.m_buffer.take s.m_size).filterMap id

/-- Accessor `front()` (lines 237-247): asserts non-emptiness, then reads
slot 0. -/
def front? (s : static_vector α N) : Option α :=
  if s.m_size = 0 then none else s.m_buffer.getD 0 none

/-- Accessor `back()` (lines 249-259): asserts non-emptiness, then reads
slot `m_size - 1`. -/
def back? (s : static_vector α N) : Option α :=
  if s.m_size = 0 then none else s.m_buffer.getD (s.m_size - 1) none

/-- Unchecked access `operator[]` (lines 269-279): asserts `idx < size`,
then reads slot `idx`. -/
def getIdx (s : static_vector α N) (idx : Nat) : Option α :=
  if idx < s.m_size then s.m_buffer.getD idx none else none

/-- Checked access `at` (lines 281-293): throws `std::out_of_range` when
`idx >= m_size`, otherwise returns slot `idx`.  The state is read-only
here, as in the source, so the container is left unchanged. -/
def atIdx (s : static_vector α N) (idx : Nat) : Except String (Option α) :=
  if s.m_size ≤ idx then Except.error "static_vector::at: index out of range"
  else Except.ok (s.m_buffer.getD idx none)

/-- Mutator `emplace_back` (lines 307-314): asserts `size() < N`, then
placement-constructs into slot `m_size` and increments `m_size`. -/
def emplace_back (s : static_vector α N) (v : α) : Option (static_vector α N) :=
  if s.m_size < N then some ⟨s.m_buffer.set s.m_size (some v), s.m_size + 1⟩ else none

/-- Mutator `push_back` (lines 295-305): asserts `size() < N` and delegates
to `emplace_back`. -/
def push_back (s : static_vector α N) (v : α) : Option (static_vector α N) :=
  emplace_back s v

/-- Mutator `pop_back` (lines 316-324): asserts non-emptiness, destroys the
last live slot and decrements `m_size`. -/
def pop_back (s : static_vector α N) : Option (static_vector α N) :=
  if s.m_size = 0 then none
  else some ⟨s.m_buffer.set (s.m_size - 1) none, s.m_size - 1⟩

/-- Mutator `emplace(pos, args...)` (lines 326-357) with `pos` given as the
index `i = pos - cbegin()`: asserts `size() < N` and `i ≤ size`; when
inserting strictly inside, move-constructs the last element into the slot
at the old end, shifts `(i, size-1]` one slot right, and assigns the new
value at `i`; otherwise placement-constructs at the end.  `m_size` is
incremented once. -/
def emplace (s : static_vector α N) (i : Nat) (v : α) : Option (static_vector α N) :=
  if s.m_size < N ∧ i ≤ s.m_size then
    some
      (if i < s.m_size then
        ⟨(shiftLoop i (s.m_buffer.set s.m_size (s.m_buffer.getD (s.m_size - 1) none))
            (s.m_size - 1)).set i (some v),
         s.m_size + 1⟩
      else ⟨s.m_buffer.set i (some v), s.m_size + 1⟩)
  else none

/-- Mutator `insert` (lines 359-372): delegates to `emplace`. -/
def insert (s : static_vector α N) (i : Nat) (v : α) : Option (static_vector α N) :=
  emplace s i v

/-- Mutator `erase(pos)` (lines 374-388) with `pos` as index `i`: asserts
non-emptiness and `i < size`; move-assigns `(i, size)` one slot left, then
`pop_back()` destroys the duplicate last slot and decrements `m_size`. -/
def erase (s : static_vector α N) (i : Nat) : Option (static_vector α N) :=
  if 0 < s.m_size ∧ i < s.m_size then
    some ⟨(moveLeftLoop s.m_buffer (i + 1) i (s.m_size - (i + 1))).set (s.m_size - 1) none,
          s.m_size - 1⟩
  else none

/-- Helper `destruct_and_downsize` (lines 448-457): destroys slots
`[idx, m_size)` and sets `m_size = idx`. -/
def destruct_and_downsize (s : static_vector α N) (idx : Nat) : static_vector α N :=
  ⟨destroyLoop s.m_buffer idx (s.m_size - idx), idx⟩

/-- Mutator `clear` (lines 413-415). -/
def clear (s : static_vector α N) : static_vector α N :=
  destruct_and_downsize s 0

/-- Mutator `resize(count)` (lines 417-430): shrink by destroying the tail,
or grow by default-constructing `[m_size, count)`.  The source performs no
capacity check in the growth branch. -/
def resize (s : static_vector α N) [Inhabited α] (count : Nat) : static_vector α N :=
  if count ≤ s.m_size then destruct_and_downsize s count
  else ⟨constructLoop default s.m_buffer s.m_size (count - s.m_size), count⟩

/-- Mutator `resize(count, v)` (lines 432-445). -/
def resizeVal (s : static_vector α N) (count : Nat) (v : α) : static_vector α N :=
  if count ≤ s.m_size then destruct_and_downsize s count
  else ⟨constructLoop v s.m_buffer s.m_size (count - s.m_size), count⟩

/-- Member `swap` (lines 139-171): pairwise-swap the overlapping range
`[0, min)`, move-construct the longer tail into the shorter side, and
exchange the sizes.  The moved-from tail slots of the longer side are not
destroyed by the source. -/
def swap (a b : static_vector α N) : static_vector α N × static_vector α N :=
  let p := swapLoop a.m_buffer b.m_buffer 0 (Nat.min a.m_size b.m_size)
  if a.m_size < b.m_size then
    (⟨copyRange p.1 p.2 a.m_size (b.m_size - a.m_size), b.m_size⟩, ⟨p.2, a.m_size⟩)
  else if b.m_size < a.m_size then
    (⟨p.1, b.m_size⟩, ⟨copyRange p.2 p.1 b.m_size (a.m_size - b.m_size), a.m_size⟩)
  else (⟨p.1, b.m_size⟩, ⟨p.2, a.m_size⟩)

end static_vector

/-- helper: `insertIdx` as take/cons/drop. -/
theorem list_insertIdx_eq {β : Type} (a : β) :
    ∀ (n : Nat) (l : List β), n ≤ l.length →
      l.insertIdx n a = l.take n ++ a :: l.drop n := by
  intro n
  induction n with
  | zero => intro l _; simp [List.insertIdx_zero]
  | succ n ih =>
    intro l h
    match l with
    | [] => simp at h
    | x :: l2 =>
      rw [List.insertIdx_succ_cons, ih l2 (by simpa using h)]
      simp

/-- helper: reattaching the `getD`-read last element. -/
theorem list_dropLast_append_getD {β : Type} (l : List β) (d : β) (h : l ≠ []) :
    l.dropLast ++ [l.getD (l.length - 1) d] = l := by
  have hlen : 0 < l.length := List.length_pos.mpr h
  have h1 : l.getD (l.length - 1) d = l.getLast h := by
    rw [List.getD_eq_getElem?_getD, List.getElem?_eq_getElem (by omega), List.getLast_eq_getElem]
    rfl
  rw [h1]
  exact List.dropLast_append_getLast h

namespace static_vector

theorem constructLoop_zero {α : Type} (v : α) (buf : List (Option α)) (i : Nat) :
    constructLoop v buf i 0 = buf := rfl

theorem constructLoop_succ {α : Type} (v : α) (buf : List (Option α)) (i n : Nat) :
    constructLoop v buf i (n + 1) = constructLoop v (buf.set i (some v)) (i + 1) n := rfl

theorem constructList_nil {α : Type} (buf : List (Option α)) (i : Nat) :
    constructList buf i ([] : List α) = buf := rfl

theorem constructList_cons {α : Type} (buf : List (Option α)) (i : Nat) (x : α) (xs : List α) :
    constructList buf i (x :: xs) = constructList (buf.set i (some x)) (i + 1) xs := rfl

theorem destroyLoop_zero {α : Type} (buf : List (Option α)) (i : Nat) :
    destroyLoop buf i 0 = buf := rfl

theorem destroyLoop_succ {α : Type} (buf : List (Option α)) (i n : Nat) :
    destroyLoop buf i (n + 1) = destroyLoop (buf.set i none) (i + 1) n := rfl

theorem shiftLoop_zero {α : Type} (i : Nat) (buf : List (Option α)) :
    shiftLoop i buf 0 = buf := rfl

theorem shiftLoop_succ {α : Type} (i : Nat) (buf : List (Option α)) (j : Nat) :
    shiftLoop i buf (j + 1)
      = if i < j + 1 then shiftLoop i (buf.set (j + 1) (buf.getD j none)) j else buf := rfl

theorem moveLeftLoop_zero {α : Type} (buf : List (Option α)) (first d : Nat) :
    moveLeftLoop buf first d 0 = buf := rfl

theorem moveLeftLoop_succ {α : Type} (buf : List (Option α)) (first d n : Nat) :
    moveLeftLoop buf first d (n + 1)
      = moveLeftLoop (buf.set d (buf.getD first none)) (first + 1) (d + 1) n := rfl

/-- helper: effect of the construction loop on a canonical buffer. -/
theorem constructLoop_spec {α : Type} (v : α) :
    ∀ (n : Nat) (X : List (Option α)) (m : Nat), n ≤ m →
      constructLoop v (X ++ List.replicate m none) X.length n
        = (X ++ List.replicate n (some v)) ++ List.replicate (m - n) none := by
  intro n
  induction n with
  | zero => intro X m _; simp [constructLoop_zero]
  | succ n ih =>
    intro X m h
    obtain ⟨m2, rfl⟩ : ∃ m2, m = m2 + 1 := ⟨m - 1, by omega⟩
    rw [constructLoop_succ]
    have hset : (X ++ List.replicate (m2 + 1) none).set X.length (some v)
        = (X ++ [some v]) ++ List.replicate m2 none := by
      rw [List.replicate_succ, List.set_append_right _ _ (Nat.le_refl _), Nat.sub_self]
      simp
    have hlen : X.length + 1 = (X ++ [some v]).length := by simp
    rw [hset, hlen, ih (X ++ [some v]) m2 (by omega)]
    simp [List.replicate_succ, List.append_assoc]

/-- helper: effect of the initializer-list construction loop on a canonical
buffer. -/
theorem constructList_spec {α : Type} :
    ∀ (l : List α) (X : List (Option α)) (m : Nat), l.length ≤ m →
      constructList (X ++ List.replicate m none) X.length l
        = (X ++ l.map some) ++ List.replicate (m - l.length) none := by
  intro l
  induction l with
  | nil => intro X m _; simp [constructList_nil]
  | cons x xs ih =>
    intro X m h
    have h2 : xs.length + 1 ≤ m := by simpa using h
    obtain ⟨m2, rfl⟩ : ∃ m2, m = m2 + 1 := ⟨m - 1, by omega⟩
    rw [constructList_cons]
    have hset : (X ++ List.replicate (m2 + 1) none).set X.length (some x)
        = (X ++ [some x]) ++ List.replicate m2 none := by
      rw [List.replicate_succ, List.set_append_right _ _ (Nat.le_refl _), Nat.sub_self]
      simp
    have hlen : X.length + 1 = (X ++ [some x]).length := by simp
    rw [hset, hlen, ih (X ++ [some x]) m2 (by omega)]
    simp [List.append_assoc]

/-- helper: effect of the destructor loop on a buffer. -/
theorem destroyLoop_spec {α : Type} :
    ∀ (Y X R : List (Option α)),
      destroyLoop (X ++ (Y ++ R)) X.length Y.length
        = X ++ (List.replicate Y.length none ++ R) := by
  intro Y
  induction Y with
  | nil => intro X R; simp [destroyLoop_zero]
  | cons y ys ih =>
    intro X R
    simp only [List.length_cons, List.cons_append]
    rw [destroyLoop_succ]
    have hset : (X ++ y :: (ys ++ R)).set X.length none
        = (X ++ [none]) ++ (ys ++ R) := by
      rw [List.set_append_right _ _ (Nat.le_refl _), Nat.sub_self]
      simp
    have hlen : X.length + 1 = (X ++ [(none : Option α)]).length := by simp
    rw [hset, hlen, ih (X ++ [none]) R]
    simp [List.replicate_succ, List.append_assoc]

/-- helper: effect of the left-shift copy loop on a buffer: the region
`[d, d + n]` becomes the `n` source cells followed by the stale final
cell. -/
theorem moveLeftLoop_spec {α : Type} :
    ∀ (D A : List (Option α)) (h : Option α) (C : List (Option α)),
      moveLeftLoop (A ++ h :: (D ++ C)) (A.length + 1) A.length D.length
        = (A ++ D) ++ ((h :: D).getD D.length none) :: C := by
  intro D
  induction D with
  | nil => intro A h C; simp [moveLeftLoop_zero]
  | cons d0 D2 ih =>
    intro A h C
    simp only [List.length_cons, List.cons_append]
    rw [moveLeftLoop_succ]
    have hget : (A ++ h :: d0 :: (D2 ++ C)).getD (A.length + 1) none = d0 := by
      rw [List.getD_append_right _ _ _ _ (by omega), Nat.add_sub_cancel_left]
      rfl
    have hset : (A ++ h :: d0 :: (D2 ++ C)).set A.length d0
        = (A ++ [d0]) ++ d0 :: (D2 ++ C) := by
      rw [List.set_append_right _ _ (Nat.le_refl _), Nat.sub_self]
      simp
    have hlen1 : A.length + 1 + 1 = (A ++ [d0]).length + 1 := by simp
    have hlen2 : A.length + 1 = (A ++ [d0]).length := by simp
    rw [hget, hset, hlen1, hlen2, ih (A ++ [d0]) d0 C]
    simp [List.append_assoc, List.getD_cons_succ]

/-- helper: effect of the right-shift loop of `emplace` on a buffer: the
region `[i, j]` keeps its first cell and shifts the rest one slot to the
right, its stale last cell being dropped. -/
theorem shiftLoop_spec {α : Type} (A : List (Option α)) (d : Option α) :
    ∀ (E : List (Option α)) (C : List (Option α)),
      shiftLoop A.length (A ++ d :: (E ++ C)) (A.length + E.length)
        = A ++ d :: ((d :: E).dropLast ++ C) := by
  intro E
  induction E using List.reverseRecOn with
  | nil =>
    intro C
    simp only [List.length_nil, Nat.add_zero, List.nil_append]
    have hres : shiftLoop A.length (A ++ d :: C) A.length = A ++ d :: C := by
      match hA : A.length with
      | 0 => rw [shiftLoop_zero]
      | k + 1 => rw [shiftLoop_succ, if_neg (by omega)]
    rw [hres]
    simp
  | append_singleton D2 e ih =>
    intro C
    simp only [List.length_append, List.length_singleton, List.append_assoc,
      List.singleton_append]
    rw [← Nat.add_assoc, shiftLoop_succ, if_pos (by omega)]
    have hget : (A ++ d :: (D2 ++ e :: C)).getD (A.length + D2.length) none
        = (d :: D2).getD D2.length none := by
      rw [List.getD_append_right _ _ _ _ (by omega), Nat.add_sub_cancel_left]
      have hsplit : d :: (D2 ++ e :: C) = (d :: D2) ++ (e :: C) := by simp
      rw [hsplit, List.getD_append _ _ _ _ (by simp)]
    have hset : (A ++ d :: (D2 ++ e :: C)).set (A.length + D2.length + 1)
          ((d :: D2).getD D2.length none)
        = A ++ d :: (D2 ++ ((d :: D2).getD D2.length none) :: C) := by
      have hsplit : A ++ d :: (D2 ++ e :: C) = (A ++ d :: D2) ++ (e :: C) := by simp
      have hlen : A.length + D2.length + 1 = (A ++ d :: D2).length := by
        simp [Nat.add_comm, Nat.add_assoc, Nat.add_left_comm]
      rw [hsplit, hlen, List.set_append_right _ _ (Nat.le_refl _), Nat.sub_self]
      simp
    rw [hget, hset, ih (((d :: D2).getD D2.length none) :: C)]
    have hlast : (d :: D2).dropLast ++ ((d :: D2).getD D2.length none) :: C
        = (d :: D2) ++ C := by
      have h1 : ((d :: D2).getD D2.length none) :: C
          = [(d :: D2).getD ((d :: D2).length - 1) none] ++ C := by simp
      rw [h1, ← List.append_assoc,
        list_dropLast_append_getD (d :: D2) none (List.cons_ne_nil d D2)]
    have hdrop : (d :: (D2 ++ [e])).dropLast = d :: D2 := by
      have h2 : d :: (D2 ++ [e]) = (d :: D2) ++ [e] := by simp
      rw [h2, List.dropLast_concat]
    rw [hdrop, hlast]

theorem canonical_buffer {α : Type} {N : Nat} (c : List α) :
    (canonical N c).m_buffer = c.map some ++ List.replicate (N - c.length) none := rfl

theorem canonical_size {α : Type} {N : Nat} (c : List α) :
    (canonical N c).m_size = c.length := rfl

/-- helper: peel one dead slot off the free region. -/
theorem replicate_none_peel {α : Type} {N len : Nat} (h : len < N) :
    List.replicate (N - len) (none : Option α) = none :: List.replicate (N - len - 1) none := by
  rw [← List.replicate_succ]
  congr 1
  omega

/-- helper: split the live region at index `i`. -/
theorem map_some_split {α : Type} (xs : List α) (i : Nat) (h : i < xs.length) :
    xs.map some
      = (xs.take i).map some ++ some (xs[i]) :: (xs.drop (i + 1)).map some := by
  conv_lhs => rw [← List.take_append_drop i xs]
  rw [List.map_append, List.drop_eq_getElem_cons h, List.map_cons]

theorem length_map_take {α : Type} (c : List α) (i : Nat) (h : i ≤ c.length) :
    ((c.take i).map some).length = i := by
  simp [List.length_take]
  omega

/-- helper: the live region of a canonical state reads back as its list. -/
theorem contents_canonical {α : Type} {N : Nat} (c : List α) (_h : c.length ≤ N) :
    contents (canonical N c) = c := by
  show ((c.map some ++ List.replicate (N - c.length) none).take c.length).filterMap id = c
  rw [show c.length = (c.map some).length from (List.length_map c some).symm, List.take_left,
    List.filterMap_map]
  have hcomp : (id ∘ some : α → Option α) = some := rfl
  rw [hcomp, List.filterMap_some]

theorem canonical_getD_lt {α : Type} {N : Nat} (xs : List α) (i : Nat) (h : i < xs.length) :
    (canonical N xs).m_buffer.getD i none = some (xs[i]) := by
  rw [canonical_buffer, List.getD_eq_getElem?_getD,
    List.getElem?_append_left (by simpa using h), List.getElem?_map,
    List.getElem?_eq_getElem h]
  rfl

theorem canonical_getD_ge {α : Type} {N : Nat} (c : List α) (i : Nat) (h : c.length ≤ i) :
    (canonical N c).m_buffer.getD i none = none := by
  rw [canonical_buffer, List.getD_eq_getElem?_getD,
    List.getElem?_append_right (by simpa using h)]
  rw [List.getElem?_replicate]
  by_cases hlt : i - (c.map some).length < N - c.length
  · rw [if_pos (by simpa using hlt)]; rfl
  · rw [if_neg (by simpa using hlt)]; rfl

/-- helper: `emplace_back` on a canonical state appends the value. -/
theorem emplace_back_canonical {α : Type} {N : Nat} (xs : List α) (v : α)
    (h : xs.length < N) :
    emplace_back (canonical N xs) v = some (canonical N (xs ++ [v])) := by
  have hcond : (canonical N xs).m_size < N := h
  rw [emplace_back, if_pos hcond]
  congr 1
  rw [canonical_buffer, canonical_size, replicate_none_peel h]
  have hset : (xs.map some ++ none :: List.replicate (N - xs.length - 1) none).set
        xs.length (some v)
      = xs.map some ++ some v :: List.replicate (N - xs.length - 1) none := by
    rw [List.set_append_right _ _ (by simp), show xs.length - (xs.map some).length = 0
        from by simp]
    rfl
  rw [hset, canonical]
  congr 1
  · rw [List.map_append]
    simp only [List.map_cons, List.map_nil]
    rw [List.append_assoc, List.singleton_append]
    congr 2
    simp
    omega
  · simp

/-- helper: `push_back` on a canonical state appends the value. -/
theorem push_back_canonical {α : Type} {N : Nat} (xs : List α) (v : α)
    (h : xs.length < N) :
    push_back (canonical N xs) v = some (canonical N (xs ++ [v])) :=
  emplace_back_canonical xs v h

/-- helper: `pop_back` on a canonical state drops the last value. -/
theorem pop_back_canonical {α : Type} {N : Nat} (xs : List α) (x : α)
    (h : xs.length + 1 ≤ N) :
    pop_back (canonical N (xs ++ [x])) = some (canonical N xs) := by
  have hcond : ¬ (canonical N (xs ++ [x])).m_size = 0 := by
    rw [canonical_size]
    simp
  rw [pop_back, if_neg hcond]
  congr 1
  rw [canonical_buffer, canonical_size]
  have hlen : (xs ++ [x]).length = xs.length + 1 := by simp
  rw [hlen, Nat.add_sub_cancel, List.map_append]
  simp only [List.map_cons, List.map_nil]
  have hset : ((xs.map some ++ [some x]) ++ List.replicate (N - (xs.length + 1)) none).set
        xs.length none
      = xs.map some ++ none :: List.replicate (N - (xs.length + 1)) none := by
    rw [List.append_assoc,
      List.set_append_right _ _ (by simp), show xs.length - (xs.map some).length = 0
        from by simp]
    rfl
  rw [hset, canonical]
  congr 1
  rw [replicate_none_peel (show xs.length < N by omega), Nat.sub_sub]

/-- helper: `destruct_and_downsize` on a canonical state truncates. -/
theorem destruct_and_downsize_canonical {α : Type} {N : Nat} (xs : List α) (idx : Nat)
    (hidx : idx ≤ xs.length) (hN : xs.length ≤ N) :
    destruct_and_downsize (canonical N xs) idx = canonical N (xs.take idx) := by
  rw [destruct_and_downsize, canonical_buffer, canonical_size]
  have hsplit : xs.map some ++ List.replicate (N - xs.length) none
      = (xs.take idx).map some
        ++ ((xs.drop idx).map some ++ List.replicate (N - xs.length) none) := by
    rw [← List.append_assoc, ← List.map_append, List.take_append_drop]
  have hd := destroyLoop_spec ((xs.drop idx).map some) ((xs.take idx).map some)
    (List.replicate (N - xs.length) none)
  have hlen1 : ((xs.take idx).map some).length = idx := length_map_take xs idx hidx
  have hlen2 : ((xs.drop idx).map some).length = xs.length - idx := by simp
  rw [hlen1, hlen2] at hd
  have htk : (xs.take idx).length = idx := by
    simp [List.length_take]
    omega
  rw [hsplit, hd, canonical, htk]
  congr 2
  rw [← List.replicate_add]
  congr 1
  omega

/-- helper: `clear` on a canonical state empties it. -/
theorem clear_canonical {α : Type} {N : Nat} (xs : List α) (hN : xs.length ≤ N) :
    clear (canonical N xs) = canonical N ([] : List α) := by
  rw [clear, destruct_and_downsize_canonical xs 0 (Nat.zero_le _) hN, List.take_zero]

/-- helper: `resize` on a canonical state truncates or pads with
default-constructed elements. -/
theorem resize_canonical {α : Type} [Inhabited α] {N : Nat} (xs : List α) (count : Nat)
    (hc : count ≤ N) (hN : xs.length ≤ N) :
    resize (canonical N xs) count
      = canonical N (if count ≤ xs.length then xs.take count
          else xs ++ List.replicate (count - xs.length) default) := by
  by_cases hle : count ≤ xs.length
  · rw [resize, if_pos (by rw [canonical_size]; exact hle), if_pos hle]
    exact destruct_and_downsize_canonical xs count hle hN
  · rw [resize, if_neg (by rw [canonical_size]; exact hle), if_neg hle]
    rw [canonical_buffer, canonical_size]
    have hlen : xs.length = (xs.map some).length := by simp
    have hcl := constructLoop_spec (default : α) (count - xs.length) (xs.map some)
      (N - xs.length) (by omega)
    rw [← hlen] at hcl
    rw [hcl, canonical, List.map_append, List.map_replicate]
    congr 1
    · congr 2
      simp only [List.length_append, List.length_replicate, List.length_map]
      omega
    · simp only [List.length_append, List.length_replicate]
      omega

/-- helper: `resize(count, v)` on a canonical state truncates or pads with
copies of `v`. -/
theorem resizeVal_canonical {α : Type} {N : Nat} (xs : List α) (count : Nat) (v : α)
    (hc : count ≤ N) (hN : xs.length ≤ N) :
    resizeVal (canonical N xs) count v
      = canonical N (if count ≤ xs.length then xs.take count
          else xs ++ List.replicate (count - xs.length) v) := by
  by_cases hle : count ≤ xs.length
  · rw [resizeVal, if_pos (by rw [canonical_size]; exact hle), if_pos hle]
    exact destruct_and_downsize_canonical xs count hle hN
  · rw [resizeVal, if_neg (by rw [canonical_size]; exact hle), if_neg hle]
    rw [canonical_buffer, canonical_size]
    have hlen : xs.length = (xs.map some).length := by simp
    have hcl := constructLoop_spec v (count - xs.length) (xs.map some)
      (N - xs.length) (by omega)
    rw [← hlen] at hcl
    rw [hcl, canonical, List.map_append, List.map_replicate]
    congr 1
    · congr 2
      simp only [List.length_append, List.length_replicate, List.length_map]
      omega
    · simp only [List.length_append, List.length_replicate]
      omega

/-- helper: the count constructor yields the canonical state of `count`
default values, whenever `count ≤ N`. -/
theorem ofCount_canonical {α : Type} [Inhabited α] {N count : Nat} (hc : count ≤ N) :
    ofCount α N count = canonical N (List.replicate count (default : α)) := by
  rw [ofCount]
  have hcl := constructLoop_spec (default : α) count ([] : List (Option α)) N hc
  simp only [List.nil_append, List.length_nil] at hcl
  rw [hcl, canonical]
  congr 1
  · simp [List.map_replicate]
  · simp

/-- helper: the count-value constructor yields the canonical state of
`count` copies of `v`, whenever `count ≤ N`. -/
theorem ofCountVal_canonical {α : Type} {N count : Nat} (v : α) (hc : count ≤ N) :
    ofCountVal N count v = canonical N (List.replicate count v) := by
  rw [ofCountVal]
  have hcl := constructLoop_spec v count ([] : List (Option α)) N hc
  simp only [List.nil_append, List.length_nil] at hcl
  rw [hcl, canonical]
  congr 1
  · simp [List.map_replicate]
  · simp

/-- helper: the initializer-list constructor yields the canonical state of
the given values, whenever they fit. -/
theorem ofList_canonical {α : Type} {N : Nat} (l : List α) (hc : l.length ≤ N) :
    ofList N l = canonical N l := by
  rw [ofList]
  have hcl := constructList_spec l ([] : List (Option α)) N hc
  simp only [List.nil_append, List.length_nil] at hcl
  rw [hcl, canonical]

/-- helper: setting the cell right after a prefix. -/
theorem set_cons_boundary {β : Type} (A : List β) (y z : β) (X : List β) (n : Nat)
    (hA : n = A.length) :
    (A ++ y :: X).set n z = A ++ z :: X := by
  subst hA
  rw [List.set_append_right _ _ (Nat.le_refl _), Nat.sub_self]
  rfl

/-- helper: reading a live cell through `map some` with an arbitrary
default. -/
theorem map_some_getD {α : Type} (xs : List α) (j : Nat) (d : α) (h : j < xs.length) :
    (xs.map some).getD j none = some (xs.getD j d) := by
  rw [List.getD_eq_getElem?_getD, List.getD_eq_getElem?_getD, List.getElem?_map,
    List.getElem?_eq_getElem h]
  rfl

/-- helper: `getD` after `drop`. -/
theorem getD_drop_add {β : Type} (xs : List β) (n k : Nat) (d : β) :
    (xs.drop n).getD k d = xs.getD (n + k) d := by
  rw [List.getD_eq_getElem?_getD, List.getD_eq_getElem?_getD, List.getElem?_drop]

/-- helper: variant of `canonical_getD_lt` with an arbitrary default for
the element read. -/
theorem canonical_getD_lt_getD {α : Type} {N : Nat} (xs : List α) (i : Nat) (d : α)
    (h : i < xs.length) :
    (canonical N xs).m_buffer.getD i none = some (xs.getD i d) := by
  rw [canonical_getD_lt xs i h, List.getD_eq_getElem?_getD, List.getElem?_eq_getElem h]
  rfl


/-- helper: `erase` on a canonical state removes the element at `i`. -/
theorem erase_canonical {α : Type} {N : Nat} (xs : List α) (i : Nat)
    (hi : i < xs.length) (hN : xs.length ≤ N) :
    erase (canonical N xs) i = some (canonical N (xs.eraseIdx i)) := by
  have hcond : 0 < (canonical N xs).m_size ∧ i < (canonical N xs).m_size := by
    rw [canonical_size]
    exact ⟨by omega, hi⟩
  rw [erase, if_pos hcond]
  congr 1
  rw [canonical_size, canonical_buffer, map_some_split xs i hi]
  simp only [List.append_assoc, List.cons_append]
  have hm := moveLeftLoop_spec ((xs.drop (i + 1)).map some) ((xs.take i).map some)
    (some (xs[i])) (List.replicate (N - xs.length) none)
  rw [length_map_take xs i (Nat.le_of_lt hi)] at hm
  rw [show ((xs.drop (i + 1)).map some).length = xs.length - (i + 1) from by simp] at hm
  rw [hm]
  have hA2 : xs.length - 1 = ((xs.take i).map some ++ (xs.drop (i + 1)).map some).length := by
    simp only [List.length_append, List.length_map, List.length_take, List.length_drop]
    omega
  rw [set_cons_boundary _ _ _ _ _ hA2]
  rw [canonical, List.eraseIdx_eq_take_drop_succ, List.map_append]
  congr 1
  · congr 1
    rw [show (none : Option α) :: List.replicate (N - xs.length) none
        = List.replicate (N - xs.length + 1) none from (List.replicate_succ _ _).symm]
    congr 1
    simp only [List.length_append, List.length_map, List.length_take, List.length_drop]
    omega
  · simp only [List.length_append, List.length_take, List.length_drop]
    omega

/-- helper: `emplace` on a canonical state inserts the value at index `i`,
shifting the tail one slot to the right. -/
theorem emplace_canonical {α : Type} {N : Nat} (xs : List α) (i : Nat) (v : α)
    (hi : i ≤ xs.length) (hN : xs.length < N) :
    emplace (canonical N xs) i v = some (canonical N (xs.insertIdx i v)) := by
  have hcond : (canonical N xs).m_size < N ∧ i ≤ (canonical N xs).m_size := by
    rw [canonical_size]
    exact ⟨hN, hi⟩
  rw [emplace, if_pos hcond]
  congr 1
  by_cases hlt : i < xs.length
  · rw [if_pos (show i < (canonical N xs).m_size from by rw [canonical_size]; exact hlt)]
    rw [canonical_size, canonical_getD_lt_getD xs (xs.length - 1) v (by omega),
      canonical_buffer, replicate_none_peel hN]
    have hset0 : (xs.map some ++ none :: List.replicate (N - xs.length - 1) none).set
          xs.length (some (xs.getD (xs.length - 1) v))
        = xs.map some ++ some (xs.getD (xs.length - 1) v)
            :: List.replicate (N - xs.length - 1) none :=
      set_cons_boundary _ _ _ _ _ (by simp)
    rw [hset0, map_some_split xs i hlt]
    simp only [List.append_assoc, List.cons_append]
    have hs := shiftLoop_spec ((xs.take i).map some) (some (xs[i]))
      ((xs.drop (i + 1)).map some)
      (some (xs.getD (xs.length - 1) v) :: List.replicate (N - xs.length - 1) none)
    rw [length_map_take xs i (Nat.le_of_lt hlt)] at hs
    rw [show i + ((xs.drop (i + 1)).map some).length = xs.length - 1 from by
      simp only [List.length_map, List.length_drop]; omega] at hs
    rw [hs]
    rw [set_cons_boundary _ _ _ _ _ (length_map_take xs i (Nat.le_of_lt hlt)).symm]
    have hdi : (xs.drop i).map some = some (xs[i]) :: (xs.drop (i + 1)).map some := by
      rw [List.drop_eq_getElem_cons hlt, List.map_cons]
    have hne : (xs.drop i).map some ≠ [] := by
      apply List.ne_nil_of_length_pos
      simp only [List.length_map, List.length_drop]
      omega
    have hgd : ((xs.drop i).map some).getD (((xs.drop i).map some).length - 1) none
        = some (xs.getD (xs.length - 1) v) := by
      rw [show ((xs.drop i).map some).length - 1 = xs.length - i - 1 from by simp]
      rw [map_some_getD (xs.drop i) (xs.length - i - 1) v
        (by simp only [List.length_drop]; omega)]
      rw [getD_drop_add, show i + (xs.length - i - 1) = xs.length - 1 from by omega]
    have hbr : (some (xs[i]) :: (xs.drop (i + 1)).map some).dropLast
          ++ some (xs.getD (xs.length - 1) v) :: List.replicate (N - xs.length - 1) none
        = some (xs[i]) :: ((xs.drop (i + 1)).map some
            ++ List.replicate (N - xs.length - 1) none) := by
      rw [← List.cons_append, ← hdi,
        show some (xs.getD (xs.length - 1) v) :: List.replicate (N - xs.length - 1) none
          = [some (xs.getD (xs.length - 1) v)] ++ List.replicate (N - xs.length - 1) none
          from rfl,
        ← List.append_assoc, ← hgd, list_dropLast_append_getD _ none hne]
    rw [hbr, canonical, list_insertIdx_eq v i xs hi]
    have hlen2 : (xs.take i ++ v :: xs.drop i).length = xs.length + 1 := by
      simp only [List.length_append, List.length_cons, List.length_take, List.length_drop]
      omega
    congr 1
    · rw [hlen2, List.map_append, List.map_cons, hdi]
      simp only [List.append_assoc, List.cons_append]
      rw [Nat.sub_sub]
    · rw [hlen2]
  · have hieq : i = xs.length := by omega
    subst hieq
    have hc2 : ¬ xs.length < (canonical N xs).m_size := by
      rw [canonical_size]
      exact Nat.lt_irrefl _
    rw [if_neg hc2]
    rw [canonical_size, canonical_buffer, replicate_none_peel hN]
    rw [set_cons_boundary _ _ _ _ _ (by simp : xs.length = (xs.map some).length)]
    rw [List.insertIdx_length_self, canonical]
    congr 1
    · rw [List.map_append]
      simp only [List.map_cons, List.map_nil]
      rw [List.append_assoc, List.singleton_append]
      congr 3
      simp only [List.length_append, List.length_cons, List.length_nil]
      omega
    · simp

/-- Liveness invariant of the data model (spec I1/I2): the length never
exceeds the capacity and exactly the slots `[0, length)` hold constructed
objects. -/
def liveInv {α : Type} {N : Nat} (s : static_vector α N) : Prop :=
  s.m_size ≤ N ∧ ∀ i, i < N → ((s.m_buffer.getD i none).isSome ↔ i < s.m_size)

theorem canonical_liveInv {α : Type} {N : Nat} (xs : List α) (h : xs.length ≤ N) :
    liveInv (canonical N xs) := by
  constructor
  · rw [canonical_size]
    exact h
  · intro i hiN
    rw [canonical_size]
    by_cases hi : i < xs.length
    · rw [canonical_getD_lt xs i hi]
      simp [hi]
    · rw [canonical_getD_ge xs i (by omega)]
      simp
      omega

/-- Public mutating or asserting operations named by the invariant claim:
`push_back`, `emplace_back`, `pop_back`, `front`, `back`, single-position
`erase`, and both `resize` overloads. -/
inductive Op (α : Type) where
  | push : α → Op α
  | emplaceB : α → Op α
  | pop : Op α
  | frontA : Op α
  | backA : Op α
  | eraseA : Nat → Op α
  | resizeA : Nat → Op α
  | resizeV : Nat → α → Op α

/-- Preconditions of the operations, as stated by the claim. -/
def precondB {α : Type} {N : Nat} (s : static_vector α N) : Op α → Bool
  | .push _ => decide (s.m_size < N)
  | .emplaceB _ => decide (s.m_size < N)
  | .pop => decide (0 < s.m_size)
  | .frontA => decide (0 < s.m_size)
  | .backA => decide (0 < s.m_size)
  | .eraseA i => decide (0 < s.m_size) && decide (i < s.m_size)
  | .resizeA c0 => decide (c0 ≤ N)
  | .resizeV c0 _ => decide (c0 ≤ N)

/-- One operation step; `none` means an assertion fired. -/
def applyOp {α : Type} [Inhabited α] {N : Nat} (s : static_vector α N) :
    Op α → Option (static_vector α N)
  | .push v => push_back s v
  | .emplaceB v => emplace_back s v
  | .pop => pop_back s
  | .frontA => if s.m_size = 0 then none else some s
  | .backA => if s.m_size = 0 then none else some s
  | .eraseA i => erase s i
  | .resizeA c0 => some (resize s c0)
  | .resizeV c0 v => some (resizeVal s c0 v)

/-- Run a sequence of operations. -/
def runOps {α : Type} [Inhabited α] {N : Nat} (s : static_vector α N) :
    List (Op α) → Option (static_vector α N)
  | [] => some s
  | op :: ops =>
    match applyOp s op with
    | some t => runOps t ops
    | none => none

/-- Check that the precondition of every operation holds in the state in
which the operation executes. -/
def validSeqB {α : Type} [Inhabited α] {N : Nat} (s : static_vector α N) :
    List (Op α) → Bool
  | [] => true
  | op :: ops =>
    precondB s op &&
      (match applyOp s op with
       | some t => validSeqB t ops
       | none => true)

/-- helper: each operation, executed under its precondition on a canonical
state, succeeds and yields a canonical state. -/
theorem applyOp_canonical {α : Type} [Inhabited α] {N : Nat} (xs : List α) (op : Op α)
    (hN : xs.length ≤ N) (hp : precondB (canonical N xs) op = true) :
    ∃ ys, applyOp (canonical N xs) op = some (canonical N ys) ∧ ys.length ≤ N := by
  cases op with
  | push v =>
    have hlt : xs.length < N := by
      have := of_decide_eq_true hp
      rwa [canonical_size] at this
    exact ⟨xs ++ [v], push_back_canonical xs v hlt, by simp; omega⟩
  | emplaceB v =>
    have hlt : xs.length < N := by
      have := of_decide_eq_true hp
      rwa [canonical_size] at this
    exact ⟨xs ++ [v], emplace_back_canonical xs v hlt, by simp; omega⟩
  | pop =>
    have hpos : 0 < xs.length := by
      have := of_decide_eq_true hp
      rwa [canonical_size] at this
    rcases List.eq_nil_or_concat xs with hnil | ⟨L, b, rfl⟩
    · subst hnil; simp at hpos
    · rw [List.concat_eq_append] at hN ⊢
      have hL : L.length + 1 ≤ N := by simpa using hN
      exact ⟨L, pop_back_canonical L b hL, by omega⟩
  | frontA =>
    have hpos : 0 < xs.length := by
      have := of_decide_eq_true hp
      rwa [canonical_size] at this
    refine ⟨xs, ?_, hN⟩
    rw [applyOp, if_neg (by rw [canonical_size]; omega)]
  | backA =>
    have hpos : 0 < xs.length := by
      have := of_decide_eq_true hp
      rwa [canonical_size] at this
    refine ⟨xs, ?_, hN⟩
    rw [applyOp, if_neg (by rw [canonical_size]; omega)]
  | eraseA i =>
    rw [precondB, Bool.and_eq_true] at hp
    have h1 : 0 < xs.length := by
      have := of_decide_eq_true hp.1
      rwa [canonical_size] at this
    have h2 : i < xs.length := by
      have := of_decide_eq_true hp.2
      rwa [canonical_size] at this
    refine ⟨xs.eraseIdx i, erase_canonical xs i h2 hN, ?_⟩
    rw [List.length_eraseIdx]
    simp [h2]
    omega
  | resizeA c0 =>
    have hc : c0 ≤ N := of_decide_eq_true hp
    refine ⟨_, by rw [applyOp, resize_canonical xs c0 hc hN], ?_⟩
    by_cases hle : c0 ≤ xs.length
    · rw [if_pos hle, List.length_take]
      omega
    · rw [if_neg hle]
      simp
      omega
  | resizeV c0 v =>
    have hc : c0 ≤ N := of_decide_eq_true hp
    refine ⟨_, by rw [applyOp, resizeVal_canonical xs c0 v hc hN], ?_⟩
    by_cases hle : c0 ≤ xs.length
    · rw [if_pos hle, List.length_take]
      omega
    · rw [if_neg hle]
      simp
      omega

/-- helper: a valid sequence of operations keeps the state canonical. -/
theorem runOps_canonical {α : Type} [Inhabited α] {N : Nat} :
    ∀ (ops : List (Op α)) (xs : List α), xs.length ≤ N →
      validSeqB (canonical N xs) ops = true →
      ∃ ys, runOps (canonical N xs) ops = some (canonical N ys) ∧ ys.length ≤ N := by
  intro ops
  induction ops with
  | nil => intro xs hN _; exact ⟨xs, rfl, hN⟩
  | cons op ops ih =>
    intro xs hN hv
    rw [validSeqB, Bool.and_eq_true] at hv
    obtain ⟨ys1, happ, hys1⟩ := applyOp_canonical xs op hN hv.1
    have hval2 : validSeqB (canonical N ys1) ops = true := by
      have := hv.2
      rw [happ] at this
      exact this
    obtain ⟨ys, hrun, hys⟩ := ih ys1 hys1 hval2
    refine ⟨ys, ?_, hys⟩
    rw [runOps, happ]
    exact hrun

/-- C1: for every sequence of public operations invoked with their
preconditions satisfied (`push_back`/`emplace_back` only when
`length < N`, `pop_back`/`front`/`back`/`erase` only when `length > 0`,
`resize` and the count constructors only with `count ≤ N`), after each
operation returns, `length ≤ N` holds and exactly the slots `[0, length)`
hold live elements.  Sequences are quantified over all valid operation
lists, so the invariant holds after every intermediate step as well. -/
theorem static_vector_invariant_preservation {α : Type} [Inhabited α] {N : Nat} :
    (∀ count : Nat, count ≤ N → liveInv (ofCount α N count)) ∧
    (∀ (count : Nat) (v : α), count ≤ N → liveInv (ofCountVal N count v)) ∧
    (∀ l : List α, l.length ≤ N → liveInv (ofList N l)) ∧
    (∀ (s : static_vector α N) (c : List α) (ops : List (Op α)),
      repOk s c → validSeqB s ops = true →
      ∃ t, runOps s ops = some t ∧ liveInv t) := by
  refine ⟨?_, ?_, ?_, ?_⟩
  · intro count hc
    rw [ofCount_canonical hc]
    exact canonical_liveInv _ (by simpa using hc)
  · intro count v hc
    rw [ofCountVal_canonical v hc]
    exact canonical_liveInv _ (by simpa using hc)
  · intro l hl
    rw [ofList_canonical l hl]
    exact canonical_liveInv _ hl
  · intro s c ops hrep hv
    obtain ⟨rfl, hlen⟩ : s = canonical N c ∧ c.length ≤ N := hrep
    obtain ⟨ys, hrun, hys⟩ := runOps_canonical ops c hlen hv
    exact ⟨canonical N ys, hrun, canonical_liveInv ys hys⟩

/-- Witness for C1: a concrete valid operation sequence on `N = 2`. -/
theorem static_vector_invariant_preservation_witness :
    ∃ t, runOps (canonical 2 [5])
        [Op.push 9, Op.backA, Op.pop, Op.resizeA 2, Op.eraseA 0] = some t ∧
      liveInv (α := Nat) (N := 2) t :=
  (static_vector_invariant_preservation (α := Nat) (N := 2)).2.2.2
    (canonical 2 [5]) [5] [Op.push 9, Op.backA, Op.pop, Op.resizeA 2, Op.eraseA 0]
    (by constructor <;> decide) (by decide)

/-- C3: inserting `v` at position `i ∈ [0, length]` (via `emplace`, to
which `insert` delegates) and then erasing position `i` yields a sequence
element-for-element equal to the original (in fact the very same state);
the intermediate state has `v` at index `i`, all other elements in their
original relative order, and length incremented by one. -/
theorem static_vector_insert_erase_inverse {α : Type} {N : Nat}
    (s : static_vector α N) (c : List α) (i : Nat) (v : α)
    (hrep : repOk s c) (hi : i ≤ c.length) (hN : c.length < N) :
    ∃ t, emplace s i v = some t ∧ insert s i v = some t ∧
      t.m_size = c.length + 1 ∧
      contents t = c.take i ++ v :: c.drop i ∧
      ∃ r, erase t i = some r ∧ r = s ∧ contents r = contents s := by
  obtain ⟨rfl, hlen⟩ := hrep
  have hinslen : (c.insertIdx i v).length = c.length + 1 := List.length_insertIdx i c hi
  refine ⟨canonical N (c.insertIdx i v), emplace_canonical c i v hi hN,
    emplace_canonical c i v hi hN, ?_, ?_, ?_⟩
  · rw [canonical_size, hinslen]
  · rw [contents_canonical _ (by omega), list_insertIdx_eq v i c hi]
  · refine ⟨canonical N ((c.insertIdx i v).eraseIdx i),
      erase_canonical _ i (by omega) (by omega), ?_, ?_⟩
    · rw [List.eraseIdx_insertIdx]
    · rw [List.eraseIdx_insertIdx]

/-- Witness for C3 at a concrete insertion in the middle. -/
theorem static_vector_insert_erase_inverse_witness :
    ∃ t, emplace (canonical 4 [10, 20, 30]) 1 (99 : Nat) = some t ∧
      insert (canonical 4 [10, 20, 30]) 1 99 = some t ∧
      t.m_size = [10, 20, 30].length + 1 ∧
      contents t = [10, 20, 30].take 1 ++ 99 :: [10, 20, 30].drop 1 ∧
      ∃ r, erase t 1 = some r ∧ r = canonical 4 [10, 20, 30] ∧
        contents r = contents (canonical 4 [10, 20, 30]) :=
  static_vector_insert_erase_inverse (canonical 4 [10, 20, 30]) [10, 20, 30] 1 99
    (by constructor <;> decide) (by decide) (by decide)

/-- C5: `at` returns the element at slot `i` exactly when `i < length` and
fails with the distinguishable out-of-range error exactly when
`i ≥ length`; it never mutates the state (it is a pure read in the model,
as in the source).  The other accessors (`operator[]`, `front`, `back`)
fail through the assertion channel instead. -/
theorem static_vector_at_contract {α : Type} {N : Nat}
    (s : static_vector α N) (cs : List α) (hrep : repOk s cs) :
    (∀ idx, idx < s.m_size →
      atIdx s idx = Except.ok (cs[idx]?) ∧ (cs[idx]?).isSome = true) ∧
    (∀ idx, s.m_size ≤ idx →
      atIdx s idx = Except.error "static_vector::at: index out of range") ∧
    (∀ idx, s.m_size ≤ idx → getIdx s idx = none) ∧
    (s.m_size = 0 → front? s = none ∧ back? s = none) := by
  obtain ⟨rfl, hlen⟩ := hrep
  refine ⟨?_, ?_, ?_, ?_⟩
  · intro idx hidx
    rw [canonical_size] at hidx
    constructor
    · rw [atIdx, if_neg (by rw [canonical_size]; omega), canonical_getD_lt cs idx hidx,
        List.getElem?_eq_getElem hidx]
    · rw [List.getElem?_eq_getElem hidx]
      rfl
  · intro idx hidx
    rw [canonical_size] at hidx
    rw [atIdx, if_pos (by rw [canonical_size]; omega)]
  · intro idx hidx
    rw [canonical_size] at hidx
    rw [getIdx, if_neg (by rw [canonical_size]; omega)]
  · intro h0
    rw [canonical_size] at h0
    constructor
    · rw [front?, if_pos (by rw [canonical_size]; omega)]
    · rw [back?, if_pos (by rw [canonical_size]; omega)]

/-- Witness for C5, matching the concrete spec scenario with `N = 4` and
four zero elements: `at 3` returns the element, `at 4` is out of range. -/
theorem static_vector_at_contract_witness :
    (atIdx (canonical 4 (List.replicate 4 (0 : Nat))) 3
        = Except.ok ((List.replicate 4 (0 : Nat))[3]?) ∧
      ((List.replicate 4 (0 : Nat))[3]?).isSome = true) ∧
    atIdx (canonical 4 (List.replicate 4 (0 : Nat))) 4
      = Except.error "static_vector::at: index out of range" :=
  ⟨(static_vector_at_contract (canonical 4 (List.replicate 4 (0 : Nat)))
      (List.replicate 4 0) (by constructor <;> decide)).1 3 (by decide),
   (static_vector_at_contract (canonical 4 (List.replicate 4 (0 : Nat)))
      (List.replicate 4 0) (by constructor <;> decide)).2.1 4 (by decide)⟩

/-- Sequence of `push_back` calls, one per value. -/
def pushAll {α : Type} {N : Nat} (s : static_vector α N) :
    List α → Option (static_vector α N)
  | [] => some s
  | v :: vs =>
    match push_back s v with
    | some t => pushAll t vs
    | none => none

/-- Sequence of `k` `pop_back` calls. -/
def popN {α : Type} {N : Nat} (s : static_vector α N) :
    Nat → Option (static_vector α N)
  | 0 => some s
  | k + 1 =>
    match pop_back s with
    | some t => popN t k
    | none => none

/-- helper: pushing a list of values appends it. -/
theorem pushAll_canonical {α : Type} {N : Nat} :
    ∀ (vs cs : List α), cs.length + vs.length ≤ N →
      pushAll (canonical N cs) vs = some (canonical N (cs ++ vs)) := by
  intro vs
  induction vs with
  | nil => intro cs _; simp [pushAll]
  | cons v vs ih =>
    intro cs hcap
    rw [pushAll, push_back_canonical cs v (by simp at hcap; omega)]
    show pushAll (canonical N (cs ++ [v])) vs = some (canonical N (cs ++ v :: vs))
    rw [ih (cs ++ [v]) (by simp at hcap ⊢; omega)]
    rw [List.append_assoc, List.singleton_append]

/-- helper: popping `k` times truncates the last `k` values. -/
theorem popN_canonical {α : Type} {N : Nat} :
    ∀ (k : Nat) (cs : List α), k ≤ cs.length → cs.length ≤ N →
      popN (canonical N cs) k = some (canonical N (cs.take (cs.length - k))) := by
  intro k
  induction k with
  | zero => intro cs _ _; simp [popN, List.take_length]
  | succ k ih =>
    intro cs hk hN
    rcases List.eq_nil_or_concat cs with hnil | ⟨L, b, rfl⟩
    · subst hnil; simp at hk
    · rw [List.concat_eq_append] at hk hN ⊢
      have hL : L.length + 1 ≤ N := by simpa using hN
      rw [popN, pop_back_canonical L b hL]
      show popN (canonical N L) k = _
      rw [ih L (by simp at hk; omega) (by omega)]
      congr 2
      rw [show (L ++ [b]).length - (k + 1) = L.length - k from by simp]
      rw [List.take_append_of_le_length (by omega)]

/-- helper: `back` of a canonical state is its last value. -/
theorem back?_canonical {α : Type} {N : Nat} (cs : List α) (hne : cs ≠ []) :
    back? (canonical N cs) = cs[cs.length - 1]? := by
  have hpos : 0 < cs.length := List.length_pos.mpr hne
  rw [back?, if_neg (by rw [canonical_size]; omega), canonical_size,
    canonical_getD_lt cs (cs.length - 1) (by omega),
    List.getElem?_eq_getElem (by omega)]

/-- C6: for every state and every sequence of `k` pushes (with
`k ≤ N - length`) followed by `k` pops, the final state equals the initial
state, and the popped values come out in LIFO order: before the `j`-th
pop, `back()` is the most recently pushed not-yet-popped value. -/
theorem static_vector_push_pop_roundtrip {α : Type} {N : Nat}
    (s : static_vector α N) (cs vs : List α)
    (hrep : repOk s cs) (hcap : cs.length + vs.length ≤ N) :
    ∃ t, pushAll s vs = some t ∧
      popN t vs.length = some s ∧
      ∀ j, j < vs.length →
        ∃ u, popN t j = some u ∧ back? u = vs[vs.length - 1 - j]? := by
  obtain ⟨rfl, hlen⟩ := hrep
  refine ⟨canonical N (cs ++ vs), pushAll_canonical vs cs hcap, ?_, ?_⟩
  · rw [popN_canonical vs.length (cs ++ vs) (by simp) (by simp; omega)]
    rw [show (cs ++ vs).length - vs.length = cs.length from by simp]
    rw [List.take_left]
  · intro j hj
    rw [popN_canonical j (cs ++ vs) (by simp; omega) (by simp; omega)]
    refine ⟨_, rfl, ?_⟩
    have hmlen : ((cs ++ vs).take ((cs ++ vs).length - j)).length
        = (cs ++ vs).length - j := by
      rw [List.length_take]
      omega
    have hne : (cs ++ vs).take ((cs ++ vs).length - j) ≠ [] := by
      apply List.ne_nil_of_length_pos
      rw [hmlen]
      simp
      omega
    rw [back?_canonical _ hne, hmlen, List.getElem?_take]
    rw [if_pos (by simp; omega)]
    rw [List.getElem?_append_right (by simp; omega)]
    congr 1
    simp
    omega

/-- Witness for C6 with a non-empty start state and two pushed values. -/
theorem static_vector_push_pop_roundtrip_witness :
    ∃ t, pushAll (canonical 3 [1]) [7, 8] = some t ∧
      popN t [7, 8].length = some (canonical 3 [1]) ∧
      ∀ j, j < [7, 8].length →
        ∃ u, popN t j = some u ∧
          back? u = [7, 8][[7, 8].length - 1 - j]? :=
  static_vector_push_pop_roundtrip (canonical 3 [1]) [1] ([7, 8] : List Nat)
    (by constructor <;> decide) (by decide)

/-- C2 evaluation: on `N = 2`, swapping an empty vector `a` with a full
vector `b` exchanges the contents, but the vacated originals of `b` are
left constructed: `b` ends with `m_size = 0` while its slots 0 and 1 still
hold live objects, violating the liveness invariant.  The source performs
no destructor call in the tail loop of `swap` (lines 158-167). -/
theorem static_vector_swap_vacated_tail_not_destroyed :
    ((swap (canonical 2 ([] : List Nat)) (canonical 2 [10, 20])).2).m_size = 0 ∧
    ((swap (canonical 2 ([] : List Nat)) (canonical 2 [10, 20])).2).m_buffer
      = [some 10, some 20] ∧
    contents ((swap (canonical 2 ([] : List Nat)) (canonical 2 [10, 20])).1) = [10, 20] ∧
    contents ((swap (canonical 2 ([] : List Nat)) (canonical 2 [10, 20])).2) = [] ∧
    ¬ liveInv ((swap (canonical 2 ([] : List Nat)) (canonical 2 [10, 20])).2) := by
  refine ⟨by decide, by decide, by decide, by decide, ?_⟩
  intro hinv
  have h0 := (hinv.2 0 (by decide)).mp (by decide)
  have h2 : ((swap (canonical 2 ([] : List Nat)) (canonical 2 [10, 20])).2).m_size = 0 :=
    by decide
  omega

/-- C4 evaluation: `push_back` into a full vector triggers the capacity
assertion (modelled as `none`), but the count, count-value, and
initializer-list constructors perform no capacity check: with `N = 2` and
requested length 3 they return normally with `m_size = 3 > N`, silently
proceeding past the capacity instead of failing. -/
theorem static_vector_ctor_capacity_check_missing :
    push_back (canonical 2 [1, 2]) (5 : Nat) = none ∧
    (ofCount Nat 2 3).m_size = 3 ∧
    ¬ (ofCount Nat 2 3).m_size ≤ 2 ∧
    (ofCountVal 2 3 (7 : Nat)).m_size = 3 ∧
    (ofList 2 [1, 2, 3]).m_size = 3 ∧
    ¬ (ofList 2 [1, 2, 3]).m_size ≤ 2 := by decide

end static_vector

/-! ## Sorted-array map (`dk_flat_map.hpp`)

The comparator `Compare` (defaulting to `std::less<Key>`) is modelled by
the strict order of a `LinearOrder` on the key type; `compare_op` and
`equal_op` of the source are its lifts to key-value pairs.  Iterators are
modelled as indices into the backing container, with the container length
standing for `end()`.  `std::lower_bound`/`std::upper_bound` are modelled
by their partition-point postcondition, computed by a scan; `std::sort` is
modelled by insertion sort, which realises exactly the postcondition
(sorted-by-comparator permutation) that `std::sort` guarantees. -/

structure flat_map (κ μ : Type) where
  m_container : List (κ × μ)
deriving DecidableEq

namespace flat_map

/-- Partition point of `std::lower_bound` with `compare_op` (dk_flat_map.hpp
lines 243-249): first index whose element is not key-less than `k`. -/
def lbIdx {κ μ : Type} [LinearOrder κ] (k : κ) : List (κ × μ) → Nat
  | [] => 0
  | e :: l => if e.1 < k then lbIdx k l + 1 else 0

/-- Partition point of `std::upper_bound` with `compare_op` (lines
251-257): first index whose element is key-greater than `k`. -/
def ubIdx {κ μ : Type} [LinearOrder κ] (k : κ) : List (κ × μ) → Nat
  | [] => 0
  | e :: l => if k < e.1 then 0 else ubIdx k l + 1

/-- `equal_op` of the source (lines 286-298): equivalence of an element's
key and a probe key derived from the comparator. -/
def equal_op {κ μ : Type} [LinearOrder κ] (e : κ × μ) (k : κ) : Bool :=
  !decide (e.1 < k) && !decide (k < e.1)

/-- `equal_op` on two elements, as used by `remove_duplicates`. -/
def pair_equal_op {κ μ : Type} [LinearOrder κ] (a b : κ × μ) : Bool :=
  !decide (a.1 < b.1) && !decide (b.1 < a.1)

/-- `lower_bound` member (lines 243-249), returning an iterator index. -/
def lower_bound {κ μ : Type} [LinearOrder κ] (m : flat_map κ μ) (k : κ) : Nat :=
  lbIdx k m.m_container

/-- `upper_bound` member (lines 251-257), returning an iterator index. -/
def upper_bound {κ μ : Type} [LinearOrder κ] (m : flat_map κ μ) (k : κ) : Nat :=
  ubIdx k m.m_container

/-- `try_emplace` (lines 148-174): probes `lower_bound`; when the key is
absent (lower-bound iterator at `end()` or not key-equal) the pair is
inserted at `upper_bound` and `(iterator, true)` is returned, otherwise the
container is unchanged and `(iterator-to-existing, false)` is returned. -/
def try_emplace {κ μ : Type} [LinearOrder κ] (m : flat_map κ μ) (k : κ) (v : μ) :
    flat_map κ μ × Nat × Bool :=
  let l := m.m_container
  match l[lbIdx k l]? with
  | some e =>
    if equal_op e k then (⟨l⟩, lbIdx k l, false)
    else (⟨l.insertIdx (ubIdx k l) (k, v)⟩, ubIdx k l, true)
  | none => (⟨l.insertIdx (ubIdx k l) (k, v)⟩, ubIdx k l, true)

/-- `emplace` (lines 176-180): builds the pair, then `try_emplace`. -/
def emplace {κ μ : Type} [LinearOrder κ] (m : flat_map κ μ) (p : κ × μ) :
    flat_map κ μ × Nat × Bool :=
  try_emplace m p.1 p.2

/-- `insert` (lines 182-188): delegates to `emplace`. -/
def insert {κ μ : Type} [LinearOrder κ] (m : flat_map κ μ) (p : κ × μ) :
    flat_map κ μ × Nat × Bool :=
  emplace m p

/-- `find` (lines 219-233): lower-bound probe plus key-equality test;
`none` models the `end()` iterator. -/
def find {κ μ : Type} [LinearOrder κ] (m : flat_map κ μ) (k : κ) : Option Nat :=
  let l := m.m_container
  match l[lbIdx k l]? with
  | some e => if equal_op e k then some (lbIdx k l) else none
  | none => none

/-- `contains` (lines 235-241). -/
def contains {κ μ : Type} [LinearOrder κ] (m : flat_map κ μ) (k : κ) : Bool :=
  (find m k).isSome

/-- `erase(key)` (lines 202-209): erases the lower-bound element when it is
key-equal, returning the number of removed entries. -/
def erase_key {κ μ : Type} [LinearOrder κ] (m : flat_map κ μ) (k : κ) :
    flat_map κ μ × Nat :=
  let l := m.m_container
  match l[lbIdx k l]? with
  | some e => if equal_op e k then (⟨l.eraseIdx (lbIdx k l)⟩, 1) else (⟨l⟩, 0)
  | none => (⟨l⟩, 0)

/-- `equal_range` (lines 259-269): the upper bound is computed on the
suffix starting at the lower bound, exactly as in the source. -/
def equal_range {κ μ : Type} [LinearOrder κ] (m : flat_map κ μ) (k : κ) : Nat × Nat :=
  let l := m.m_container
  (lbIdx k l, lbIdx k l + ubIdx k (l.drop (lbIdx k l)))

/-- `sort` member (lines 300-302): `std::sort` with `compare_op`, modelled
by insertion sort over the non-strict key order (the postcondition
guaranteed by `std::sort`). -/
def sort {κ μ : Type} [LinearOrder κ] (l : List (κ × μ)) : List (κ × μ) :=
  l.insertionSort (fun a b => a.1 ≤ b.1)

/-- Inner loop of `std::unique` with `equal_op`: `kept` is the last kept
element; equal successors are skipped, others are kept and become the new
comparison anchor. -/
def uniqueLoop {κ μ : Type} [LinearOrder κ] (kept : κ × μ) :
    List (κ × μ) → List (κ × μ)
  | [] => []
  | x :: xs => if pair_equal_op kept x then uniqueLoop kept xs else x :: uniqueLoop x xs

/-- `remove_duplicates` member (lines 304-307): `std::unique` followed by
erasing the leftover tail. -/
def remove_duplicates {κ μ : Type} [LinearOrder κ] : List (κ × μ) → List (κ × μ)
  | [] => []
  | x :: xs => x :: uniqueLoop x xs

/-- Bulk constructors (lines 51-68): copy the input, `sort`, then
`remove_duplicates`. -/
def ofPairs {κ μ : Type} [LinearOrder κ] (l : List (κ × μ)) : flat_map κ μ :=
  ⟨remove_duplicates (sort l)⟩

/-- Class invariant: the backing container is strictly sorted by key, so
no two entries hold equivalent keys. -/
def sortedInv {κ μ : Type} [LinearOrder κ] (m : flat_map κ μ) : Prop :=
  List.Pairwise (fun a b : κ × μ => a.1 < b.1) m.m_container

end flat_map

namespace flat_map

instance decKeyLt {κ μ : Type} [LinearOrder κ] :
    DecidableRel (fun a b : κ × μ => a.1 < b.1) :=
  fun a b => inferInstanceAs (Decidable (a.1 < b.1))

instance decSortedInv {κ μ : Type} [LinearOrder κ] (m : flat_map κ μ) :
    Decidable (sortedInv m) :=
  inferInstanceAs (Decidable (List.Pairwise _ _))

theorem lbIdx_le_length {κ μ : Type} [LinearOrder κ] (k : κ) :
    ∀ l : List (κ × μ), lbIdx k l ≤ l.length := by
  intro l
  induction l with
  | nil => exact Nat.le_refl 0
  | cons e l ih =>
    rw [lbIdx]
    by_cases he : e.1 < k
    · rw [if_pos he]
      simpa using ih
    · rw [if_neg he]
      simp

theorem ubIdx_le_length {κ μ : Type} [LinearOrder κ] (k : κ) :
    ∀ l : List (κ × μ), ubIdx k l ≤ l.length := by
  intro l
  induction l with
  | nil => exact Nat.le_refl 0
  | cons e l ih =>
    rw [ubIdx]
    by_cases he : k < e.1
    · rw [if_pos he]
      simp
    · rw [if_neg he]
      simpa using ih

/-- helper: every element strictly before the lower bound is key-less than
`k`. -/
theorem lbIdx_lt_elem {κ μ : Type} [LinearOrder κ] (k : κ) :
    ∀ (l : List (κ × μ)) (j : Nat), j < lbIdx k l →
      ∃ e, l[j]? = some e ∧ e.1 < k := by
  intro l
  induction l with
  | nil => intro j hj; rw [lbIdx] at hj; omega
  | cons e l ih =>
    intro j hj
    rw [lbIdx] at hj
    by_cases he : e.1 < k
    · rw [if_pos he] at hj
      match j with
      | 0 => exact ⟨e, by simp, he⟩
      | j + 1 =>
        obtain ⟨f, hf, hlt⟩ := ih j (by omega)
        exact ⟨f, by simpa using hf, hlt⟩
    · rw [if_neg he] at hj
      omega

/-- helper: the element at the lower bound, when it exists, is not
key-less than `k`. -/
theorem lbIdx_at_elem {κ μ : Type} [LinearOrder κ] (k : κ) :
    ∀ (l : List (κ × μ)) (e : κ × μ), l[lbIdx k l]? = some e → ¬ e.1 < k := by
  intro l
  induction l with
  | nil => intro e he; simp at he
  | cons f l ih =>
    intro e he
    rw [lbIdx] at he
    by_cases hf : f.1 < k
    · rw [if_pos hf] at he
      exact ih e (by simpa using he)
    · rw [if_neg hf] at he
      simp at he
      rw [← he]
      exact hf

/-- helper: every element strictly before the upper bound is not
key-greater than `k`. -/
theorem ubIdx_lt_elem {κ μ : Type} [LinearOrder κ] (k : κ) :
    ∀ (l : List (κ × μ)) (j : Nat), j < ubIdx k l →
      ∃ e, l[j]? = some e ∧ ¬ k < e.1 := by
  intro l
  induction l with
  | nil => intro j hj; rw [ubIdx] at hj; omega
  | cons e l ih =>
    intro j hj
    rw [ubIdx] at hj
    by_cases he : k < e.1
    · rw [if_pos he] at hj
      omega
    · rw [if_neg he] at hj
      match j with
      | 0 => exact ⟨e, by simp, he⟩
      | j + 1 =>
        obtain ⟨f, hf, hlt⟩ := ih j (by omega)
        exact ⟨f, by simpa using hf, hlt⟩

/-- helper: the element at the upper bound, when it exists, is key-greater
than `k`. -/
theorem ubIdx_at_elem {κ μ : Type} [LinearOrder κ] (k : κ) :
    ∀ (l : List (κ × μ)) (e : κ × μ), l[ubIdx k l]? = some e → k < e.1 := by
  intro l
  induction l with
  | nil => intro e he; simp at he
  | cons f l ih =>
    intro e he
    rw [ubIdx] at he
    by_cases hf : k < f.1
    · rw [if_pos hf] at he
      simp at he
      rw [← he]
      exact hf
    · rw [if_neg hf] at he
      exact ih e (by simpa using he)

/-- helper: in a strictly key-sorted list, positions increase strictly in
key. -/
theorem sorted_key_lt {κ μ : Type} [LinearOrder κ] {l : List (κ × μ)}
    (hs : List.Pairwise (fun a b : κ × μ => a.1 < b.1) l)
    (j1 j2 : Nat) (e1 e2 : κ × μ) (h12 : j1 < j2)
    (h1 : l[j1]? = some e1) (h2 : l[j2]? = some e2) : e1.1 < e2.1 := by
  have hj2 : j2 < l.length := by
    by_contra hcon
    rw [List.getElem?_eq_none (by omega)] at h2
    exact Option.noConfusion h2
  have hj1 : j1 < l.length := by omega
  rw [List.getElem?_eq_getElem hj1] at h1
  rw [List.getElem?_eq_getElem hj2] at h2
  have := List.pairwise_iff_getElem.mp hs j1 j2 hj1 hj2 h12
  rw [Option.some.inj h1, Option.some.inj h2] at this
  exact this

/-- helper: characterization of the lower bound on a strictly sorted
list. -/
theorem lbIdx_iff {κ μ : Type} [LinearOrder κ] {l : List (κ × μ)} (k : κ)
    (hs : List.Pairwise (fun a b : κ × μ => a.1 < b.1) l)
    (j : Nat) (e : κ × μ) (hj : l[j]? = some e) :
    j < lbIdx k l ↔ e.1 < k := by
  constructor
  · intro h
    obtain ⟨f, hf, hlt⟩ := lbIdx_lt_elem k l j h
    rw [hj] at hf
    rw [Option.some.inj hf]
    exact hlt
  · intro h
    by_contra hcon
    have hjlen : j < l.length := by
      by_contra hcon2
      rw [List.getElem?_eq_none (by omega)] at hj
      exact Option.noConfusion hj
    have hlb : lbIdx k l ≤ j := by omega
    rcases Nat.eq_or_lt_of_le hlb with heq | hltj
    · have := lbIdx_at_elem k l e (heq ▸ hj)
      exact this h
    · have hlblen : lbIdx k l < l.length := by omega
      obtain ⟨f, hf⟩ : ∃ f, l[lbIdx k l]? = some f :=
        ⟨l[lbIdx k l], List.getElem?_eq_getElem hlblen⟩
      have hnf : ¬ f.1 < k := lbIdx_at_elem k l f hf
      have : f.1 < e.1 := sorted_key_lt hs (lbIdx k l) j f e hltj hf hj
      have : f.1 < k := lt_trans this h
      exact hnf this

/-- helper: characterization of the upper bound on a strictly sorted
list. -/
theorem ubIdx_iff {κ μ : Type} [LinearOrder κ] {l : List (κ × μ)} (k : κ)
    (hs : List.Pairwise (fun a b : κ × μ => a.1 < b.1) l)
    (j : Nat) (e : κ × μ) (hj : l[j]? = some e) :
    j < ubIdx k l ↔ e.1 ≤ k := by
  constructor
  · intro h
    obtain ⟨f, hf, hle⟩ := ubIdx_lt_elem k l j h
    rw [hj] at hf
    rw [Option.some.inj hf]
    exact le_of_not_lt hle
  · intro h
    by_contra hcon
    have hjlen : j < l.length := by
      by_contra hcon2
      rw [List.getElem?_eq_none (by omega)] at hj
      exact Option.noConfusion hj
    have hub : ubIdx k l ≤ j := by omega
    rcases Nat.eq_or_lt_of_le hub with heq | hltj
    · have := ubIdx_at_elem k l e (heq ▸ hj)
      exact absurd h (not_le_of_lt this)
    · have hublen : ubIdx k l < l.length := by omega
      obtain ⟨f, hf⟩ : ∃ f, l[ubIdx k l]? = some f :=
        ⟨l[ubIdx k l], List.getElem?_eq_getElem hublen⟩
      have hkf : k < f.1 := ubIdx_at_elem k l f hf
      have hfe : f.1 < e.1 := sorted_key_lt hs (ubIdx k l) j f e hltj hf hj
      exact absurd h (not_le_of_lt (lt_trans hkf hfe))

/-- helper: the suffix form of `equal_range`'s upper bound agrees with the
global upper bound. -/
theorem equal_range_suffix {κ μ : Type} [LinearOrder κ] (k : κ) :
    ∀ l : List (κ × μ), lbIdx k l + ubIdx k (l.drop (lbIdx k l)) = ubIdx k l := by
  intro l
  induction l with
  | nil => rfl
  | cons e l ih =>
    rw [lbIdx, ubIdx]
    by_cases he : e.1 < k
    · rw [if_pos he, if_neg (asymm he), List.drop_succ_cons]
      omega
    · rw [if_neg he, List.drop_zero, ubIdx]
      omega

/-- helper: `equal_op` decides key equality in a linear order. -/
theorem equal_op_iff {κ μ : Type} [LinearOrder κ] (e : κ × μ) (k : κ) :
    equal_op e k = true ↔ e.1 = k := by
  rw [equal_op, Bool.and_eq_true, Bool.not_eq_true', Bool.not_eq_true',
    decide_eq_false_iff_not, decide_eq_false_iff_not]
  constructor
  · rintro ⟨h1, h2⟩
    exact le_antisymm (le_of_not_lt h2) (le_of_not_lt h1)
  · rintro rfl
    exact ⟨lt_irrefl _, lt_irrefl _⟩

/-- helper: membership from an indexed read. -/
theorem mem_of_getElem_opt {β : Type} (l : List β) (i : Nat) (e : β)
    (h : l[i]? = some e) : e ∈ l := by
  have hlen : i < l.length := by
    by_contra hcon
    rw [List.getElem?_eq_none (by omega)] at h
    exact Option.noConfusion h
  rw [List.getElem?_eq_getElem hlen] at h
  rw [← Option.some.inj h]
  exact List.getElem_mem hlen

/-- helper: unfolding equation of `find`. -/
theorem find_eq {κ μ : Type} [LinearOrder κ] (l : List (κ × μ)) (k : κ) :
    find ⟨l⟩ k
      = match l[lbIdx k l]? with
        | some e => if equal_op e k then some (lbIdx k l) else none
        | none => none := rfl

/-- helper: unfolding equation of `try_emplace`. -/
theorem try_emplace_eq {κ μ : Type} [LinearOrder κ] (l : List (κ × μ)) (k : κ) (v : μ) :
    try_emplace ⟨l⟩ k v
      = match l[lbIdx k l]? with
        | some e =>
          if equal_op e k then ((⟨l⟩ : flat_map κ μ), lbIdx k l, false)
          else ((⟨l.insertIdx (ubIdx k l) (k, v)⟩ : flat_map κ μ), ubIdx k l, true)
        | none => ((⟨l.insertIdx (ubIdx k l) (k, v)⟩ : flat_map κ μ), ubIdx k l, true) := rfl

/-- helper: unfolding equation of `erase_key`. -/
theorem erase_key_eq {κ μ : Type} [LinearOrder κ] (l : List (κ × μ)) (k : κ) :
    erase_key ⟨l⟩ k
      = match l[lbIdx k l]? with
        | some e =>
          if equal_op e k then ((⟨l.eraseIdx (lbIdx k l)⟩ : flat_map κ μ), 1)
          else ((⟨l⟩ : flat_map κ μ), 0)
        | none => ((⟨l⟩ : flat_map κ μ), 0) := rfl

/-- helper: a key present in a strictly sorted list is found at the lower
bound. -/
theorem find_spec_mem {κ μ : Type} [LinearOrder κ] {l : List (κ × μ)} (k : κ) (v0 : μ)
    (hs : List.Pairwise (fun a b : κ × μ => a.1 < b.1) l) (hmem : (k, v0) ∈ l) :
    l[lbIdx k l]? = some (k, v0) ∧ find ⟨l⟩ k = some (lbIdx k l) := by
  obtain ⟨j, hjlen, hjget⟩ := List.getElem_of_mem hmem
  have hj : l[j]? = some (k, v0) := by
    rw [List.getElem?_eq_getElem hjlen, hjget]
  have h1 : ¬ j < lbIdx k l := by
    intro hcon
    have := (lbIdx_iff k hs j _ hj).mp hcon
    exact lt_irrefl k this
  have h2 : ¬ lbIdx k l < j := by
    intro hcon
    have hlblen : lbIdx k l < l.length := by omega
    obtain ⟨f, hf⟩ : ∃ f, l[lbIdx k l]? = some f :=
      ⟨l[lbIdx k l], List.getElem?_eq_getElem hlblen⟩
    have hnf := lbIdx_at_elem k l f hf
    exact hnf (sorted_key_lt hs _ _ f (k, v0) hcon hf hj)
  have hjeq : j = lbIdx k l := by omega
  subst hjeq
  refine ⟨hj, ?_⟩
  rw [find_eq, hj]
  show (if equal_op (k, v0) k = true then some (lbIdx k l) else none) = some (lbIdx k l)
  rw [if_pos ((equal_op_iff _ _).mpr rfl)]

/-- helper: when the lower-bound read is off the end, no element carries
key `k`. -/
theorem keys_ne_of_lb_none {κ μ : Type} [LinearOrder κ] {l : List (κ × μ)} (k : κ)
    (hnone : l[lbIdx k l]? = none) : ∀ e ∈ l, e.1 ≠ k := by
  intro e he heq
  obtain ⟨j, hjlen, hjget⟩ := List.getElem_of_mem he
  have hlb_len : l.length ≤ lbIdx k l := by
    by_contra h
    rw [List.getElem?_eq_getElem (by omega)] at hnone
    exact Option.noConfusion hnone
  obtain ⟨f, hf, hlt⟩ := lbIdx_lt_elem k l j (by omega)
  rw [List.getElem?_eq_getElem hjlen] at hf
  have hfe : f = e := by rw [← Option.some.inj hf, hjget]
  rw [hfe, heq] at hlt
  exact lt_irrefl k hlt

/-- helper: when the lower-bound element is not key-equal, no element
carries key `k`. -/
theorem keys_ne_of_lb_noteq {κ μ : Type} [LinearOrder κ] {l : List (κ × μ)} (k : κ)
    (e0 : κ × μ) (hs : List.Pairwise (fun a b : κ × μ => a.1 < b.1) l)
    (hsome : l[lbIdx k l]? = some e0) (hne : equal_op e0 k = false) :
    ∀ e ∈ l, e.1 ≠ k := by
  intro e he heq
  have hke0 : k < e0.1 := by
    have hge : ¬ e0.1 < k := lbIdx_at_elem k l e0 hsome
    have hneq : e0.1 ≠ k := by
      intro hcontra
      rw [(equal_op_iff e0 k).mpr hcontra] at hne
      exact Bool.noConfusion hne
    exact lt_of_le_of_ne (le_of_not_lt hge) (Ne.symm hneq)
  obtain ⟨j, hjlen, hjget⟩ := List.getElem_of_mem he
  have hj : l[j]? = some e := by rw [List.getElem?_eq_getElem hjlen, hjget]
  rcases Nat.lt_trichotomy j (lbIdx k l) with hcase | hcase | hcase
  · have := (lbIdx_iff k hs j e hj).mp hcase
    rw [heq] at this
    exact lt_irrefl k this
  · rw [hcase, hsome] at hj
    rw [Option.some.inj hj, heq] at hke0
    exact lt_irrefl k hke0
  · have := sorted_key_lt hs _ _ e0 e hcase hsome hj
    rw [heq] at this
    exact lt_irrefl k (lt_trans hke0 this)

/-- helper: `try_emplace` of a present key returns the container unchanged
with the lower-bound iterator and `false`. -/
theorem try_emplace_found {κ μ : Type} [LinearOrder κ] {l : List (κ × μ)}
    (k : κ) (v v0 : μ)
    (hs : List.Pairwise (fun a b : κ × μ => a.1 < b.1) l) (hmem : (k, v0) ∈ l) :
    try_emplace ⟨l⟩ k v = (⟨l⟩, lbIdx k l, false) := by
  have hj := (find_spec_mem k v0 hs hmem).1
  rw [try_emplace_eq, hj]
  show (if equal_op (k, v0) k = true then ((⟨l⟩ : flat_map κ μ), lbIdx k l, false)
    else ((⟨l.insertIdx (ubIdx k l) (k, v)⟩ : flat_map κ μ), ubIdx k l, true))
    = ((⟨l⟩ : flat_map κ μ), lbIdx k l, false)
  rw [if_pos ((equal_op_iff _ _).mpr rfl)]

/-- helper: `try_emplace` of an absent key inserts at the upper bound. -/
theorem try_emplace_absent {κ μ : Type} [LinearOrder κ] {l : List (κ × μ)}
    (k : κ) (v : μ) (habs : ∀ e ∈ l, e.1 ≠ k) :
    try_emplace ⟨l⟩ k v = (⟨l.insertIdx (ubIdx k l) (k, v)⟩, ubIdx k l, true) := by
  rcases hg : l[lbIdx k l]? with _ | e
  · rw [try_emplace_eq, hg]
  · have hne : ¬ equal_op e k = true := by
      intro hcontra
      exact habs e (mem_of_getElem_opt l _ e hg) ((equal_op_iff e k).mp hcontra)
    rw [try_emplace_eq, hg]
    show (if equal_op e k = true then ((⟨l⟩ : flat_map κ μ), lbIdx k l, false)
      else ((⟨l.insertIdx (ubIdx k l) (k, v)⟩ : flat_map κ μ), ubIdx k l, true))
      = ((⟨l.insertIdx (ubIdx k l) (k, v)⟩ : flat_map κ μ), ubIdx k l, true)
    rw [if_neg hne]

/-- helper: elements before the upper bound are in the list and not
key-greater than `k`. -/
theorem take_ub_elem {κ μ : Type} [LinearOrder κ] (k : κ) :
    ∀ l : List (κ × μ), ∀ a ∈ l.take (ubIdx k l), a ∈ l ∧ ¬ k < a.1 := by
  intro l
  induction l with
  | nil => intro a ha; simp at ha
  | cons e l ih =>
    intro a ha
    rw [ubIdx] at ha
    by_cases he : k < e.1
    · rw [if_pos he] at ha
      simp at ha
    · rw [if_neg he, List.take_succ_cons] at ha
      rcases List.mem_cons.mp ha with rfl | ha2
      · exact ⟨List.mem_cons_self _ _, he⟩
      · obtain ⟨hmem, hle⟩ := ih a ha2
        exact ⟨List.mem_cons_of_mem e hmem, hle⟩

/-- helper: in a strictly sorted list, elements from the upper bound on
are key-greater than `k`. -/
theorem drop_ub_elem {κ μ : Type} [LinearOrder κ] (k : κ) :
    ∀ l : List (κ × μ), List.Pairwise (fun a b : κ × μ => a.1 < b.1) l →
      ∀ a ∈ l.drop (ubIdx k l), k < a.1 := by
  intro l
  induction l with
  | nil => intro _ a ha; simp at ha
  | cons e l ih =>
    intro hs a ha
    rw [ubIdx] at ha
    by_cases he : k < e.1
    · rw [if_pos he, List.drop_zero] at ha
      rcases List.mem_cons.mp ha with rfl | ha2
      · exact he
      · exact lt_trans he ((List.pairwise_cons.mp hs).1 a ha2)
    · rw [if_neg he, List.drop_succ_cons] at ha
      exact ih (List.pairwise_cons.mp hs).2 a ha

/-- helper: inserting an absent key at its upper bound preserves strict
sortedness. -/
theorem insertIdx_ub_sorted {κ μ : Type} [LinearOrder κ] {l : List (κ × μ)}
    (k : κ) (v : μ)
    (hs : List.Pairwise (fun a b : κ × μ => a.1 < b.1) l)
    (habs : ∀ e ∈ l, e.1 ≠ k) :
    List.Pairwise (fun a b : κ × μ => a.1 < b.1)
      (l.insertIdx (ubIdx k l) (k, v)) := by
  rw [list_insertIdx_eq (k, v) (ubIdx k l) l (ubIdx_le_length k l)]
  rw [List.pairwise_append]
  refine ⟨hs.sublist (List.take_sublist _ _), ?_, ?_⟩
  · rw [List.pairwise_cons]
    exact ⟨fun b hb => drop_ub_elem k l hs b hb, hs.sublist (List.drop_sublist _ _)⟩
  · intro a ha b hb
    obtain ⟨hal, hale⟩ := take_ub_elem k l a ha
    have halt : a.1 < k := lt_of_le_of_ne (le_of_not_lt hale) (habs a hal)
    rcases List.mem_cons.mp hb with rfl | hbd
    · exact halt
    · exact lt_trans halt (drop_ub_elem k l hs b hbd)

/-- helper: `try_emplace` preserves the sorted invariant. -/
theorem try_emplace_sorted {κ μ : Type} [LinearOrder κ] (m : flat_map κ μ)
    (k : κ) (v : μ) (hs : sortedInv m) : sortedInv (try_emplace m k v).1 := by
  obtain ⟨l⟩ := m
  rcases hg : l[lbIdx k l]? with _ | e
  · rw [try_emplace_eq, hg]
    exact insertIdx_ub_sorted k v hs (keys_ne_of_lb_none k hg)
  · by_cases heq : equal_op e k = true
    · rw [try_emplace_eq, hg]
      show sortedInv (if equal_op e k = true then ((⟨l⟩ : flat_map κ μ), lbIdx k l, false)
        else ((⟨l.insertIdx (ubIdx k l) (k, v)⟩ : flat_map κ μ), ubIdx k l, true)).1
      rw [if_pos heq]
      exact hs
    · rw [try_emplace_eq, hg]
      show sortedInv (if equal_op e k = true then ((⟨l⟩ : flat_map κ μ), lbIdx k l, false)
        else ((⟨l.insertIdx (ubIdx k l) (k, v)⟩ : flat_map κ μ), ubIdx k l, true)).1
      rw [if_neg heq]
      exact insertIdx_ub_sorted k v hs
        (keys_ne_of_lb_noteq k e hs hg (Bool.eq_false_iff.mpr heq))

/-- helper: `erase(key)` preserves the sorted invariant. -/
theorem erase_key_sorted {κ μ : Type} [LinearOrder κ] (m : flat_map κ μ)
    (k : κ) (hs : sortedInv m) : sortedInv (erase_key m k).1 := by
  obtain ⟨l⟩ := m
  rcases hg : l[lbIdx k l]? with _ | e
  · rw [erase_key_eq, hg]
    exact hs
  · by_cases heq : equal_op e k = true
    · rw [erase_key_eq, hg]
      show sortedInv (if equal_op e k = true then ((⟨l.eraseIdx (lbIdx k l)⟩ : flat_map κ μ), 1)
        else ((⟨l⟩ : flat_map κ μ), 0)).1
      rw [if_pos heq]
      exact hs.sublist (List.eraseIdx_sublist l (lbIdx k l))
    · rw [erase_key_eq, hg]
      show sortedInv (if equal_op e k = true then ((⟨l.eraseIdx (lbIdx k l)⟩ : flat_map κ μ), 1)
        else ((⟨l⟩ : flat_map κ μ), 0)).1
      rw [if_neg heq]
      exact hs

instance keyLeTotal {κ μ : Type} [LinearOrder κ] :
    IsTotal (κ × μ) (fun a b => a.1 ≤ b.1) :=
  ⟨fun a b => le_total a.1 b.1⟩

instance keyLeTrans {κ μ : Type} [LinearOrder κ] :
    IsTrans (κ × μ) (fun a b => a.1 ≤ b.1) :=
  ⟨fun _ _ _ h1 h2 => le_trans h1 h2⟩

instance decKeyLe {κ μ : Type} [LinearOrder κ] :
    DecidableRel (fun a b : κ × μ => a.1 ≤ b.1) :=
  fun a b => inferInstanceAs (Decidable (a.1 ≤ b.1))

/-- helper: the sort step yields a key-sorted (non-strict) container. -/
theorem sort_sorted {κ μ : Type} [LinearOrder κ] (l : List (κ × μ)) :
    List.Pairwise (fun a b : κ × μ => a.1 ≤ b.1) (sort l) :=
  List.sorted_insertionSort (fun a b : κ × μ => a.1 ≤ b.1) l

/-- helper: `pair_equal_op` decides key equality. -/
theorem pair_equal_op_iff {κ μ : Type} [LinearOrder κ] (a b : κ × μ) :
    pair_equal_op a b = true ↔ a.1 = b.1 := by
  rw [pair_equal_op, Bool.and_eq_true, Bool.not_eq_true', Bool.not_eq_true',
    decide_eq_false_iff_not, decide_eq_false_iff_not]
  constructor
  · rintro ⟨h1, h2⟩
    exact le_antisymm (le_of_not_lt h2) (le_of_not_lt h1)
  · rintro hcontra
    rw [hcontra]
    exact ⟨lt_irrefl _, lt_irrefl _⟩

/-- helper: the unique loop only keeps elements of its input. -/
theorem uniqueLoop_mem {κ μ : Type} [LinearOrder κ] :
    ∀ (xs : List (κ × μ)) (kept a : κ × μ), a ∈ uniqueLoop kept xs → a ∈ xs := by
  intro xs
  induction xs with
  | nil => intro kept a ha; rw [uniqueLoop] at ha; simp at ha
  | cons x xs ih =>
    intro kept a ha
    rw [uniqueLoop] at ha
    by_cases he : pair_equal_op kept x = true
    · rw [if_pos he] at ha
      exact List.mem_cons_of_mem x (ih kept a ha)
    · rw [if_neg he] at ha
      rcases List.mem_cons.mp ha with rfl | h2
      · exact List.mem_cons_self a xs
      · exact List.mem_cons_of_mem x (ih x a h2)

/-- helper: on a (non-strictly) key-sorted run, `std::unique` with
`equal_op` produces a strictly increasing run. -/
theorem uniqueLoop_strict {κ μ : Type} [LinearOrder κ] :
    ∀ (xs : List (κ × μ)) (kept : κ × μ),
      List.Pairwise (fun a b : κ × μ => a.1 ≤ b.1) (kept :: xs) →
      List.Pairwise (fun a b : κ × μ => a.1 < b.1) (kept :: uniqueLoop kept xs) := by
  intro xs
  induction xs with
  | nil => intro kept _; rw [uniqueLoop]; simp
  | cons x xs ih =>
    intro kept hs
    obtain ⟨h1, h2⟩ := List.pairwise_cons.mp hs
    rw [uniqueLoop]
    by_cases he : pair_equal_op kept x = true
    · rw [if_pos he]
      apply ih kept
      rw [List.pairwise_cons]
      exact ⟨fun y hy => h1 y (List.mem_cons_of_mem x hy), (List.pairwise_cons.mp h2).2⟩
    · rw [if_neg he]
      have hkx : kept.1 < x.1 := by
        have hle : kept.1 ≤ x.1 := h1 x (List.mem_cons_self x xs)
        have hne : kept.1 ≠ x.1 := fun hcontra => he ((pair_equal_op_iff kept x).mpr hcontra)
        exact lt_of_le_of_ne hle hne
      have hx := ih x h2
      rw [List.pairwise_cons]
      refine ⟨?_, hx⟩
      intro y hy
      rcases List.mem_cons.mp hy with rfl | h3
      · exact hkx
      · exact lt_of_lt_of_le hkx
          ((List.pairwise_cons.mp h2).1 y (uniqueLoop_mem xs x y h3))

/-- helper: `remove_duplicates` of a key-sorted container is strictly
key-sorted. -/
theorem remove_duplicates_strict {κ μ : Type} [LinearOrder κ] (l : List (κ × μ))
    (hs : List.Pairwise (fun a b : κ × μ => a.1 ≤ b.1) l) :
    List.Pairwise (fun a b : κ × μ => a.1 < b.1) (remove_duplicates l) := by
  match l with
  | [] => rw [remove_duplicates]; exact List.Pairwise.nil
  | x :: xs => rw [remove_duplicates]; exact uniqueLoop_strict xs x hs

/-- helper: the bulk constructor establishes the sorted invariant. -/
theorem ofPairs_sorted {κ μ : Type} [LinearOrder κ] (l : List (κ × μ)) :
    sortedInv (ofPairs l) :=
  remove_duplicates_strict _ (sort_sorted l)

/-- C7: flat_map insertion is first-write-wins: when the map already
contains an entry with key equivalent to `k`, `try_emplace` (and `insert`
and `emplace`, which delegate to it) returns `false` together with the
iterator of the existing entry, and leaves the container completely
unchanged, so the previously stored mapped value survives. -/
theorem flat_map_first_write_wins {κ μ : Type} [LinearOrder κ]
    (m : flat_map κ μ) (k : κ) (v v0 : μ)
    (hs : sortedInv m) (hmem : (k, v0) ∈ m.m_container) :
    try_emplace m k v = (m, lower_bound m k, false) ∧
    m.m_container[(try_emplace m k v).2.1]? = some (k, v0) ∧
    insert m (k, v) = try_emplace m k v ∧
    emplace m (k, v) = try_emplace m k v := by
  obtain ⟨l⟩ := m
  have h1 := try_emplace_found k v v0 hs hmem
  have h2 := (find_spec_mem k v0 hs hmem).1
  refine ⟨h1, ?_, rfl, rfl⟩
  rw [h1]
  exact h2

/-- Witness for C7: inserting key 2 into a map that already binds 2 to 20
changes nothing and reports the existing entry. -/
theorem flat_map_first_write_wins_witness :
    try_emplace (⟨[(1, 10), (2, 20)]⟩ : flat_map Nat Nat) 2 99
      = ((⟨[(1, 10), (2, 20)]⟩ : flat_map Nat Nat),
         lower_bound (⟨[(1, 10), (2, 20)]⟩ : flat_map Nat Nat) 2, false) ∧
    (⟨[(1, 10), (2, 20)]⟩ : flat_map Nat Nat).m_container[
        (try_emplace (⟨[(1, 10), (2, 20)]⟩ : flat_map Nat Nat) 2 99).2.1]?
      = some (2, 20) ∧
    insert (⟨[(1, 10), (2, 20)]⟩ : flat_map Nat Nat) (2, 99)
      = try_emplace (⟨[(1, 10), (2, 20)]⟩ : flat_map Nat Nat) 2 99 ∧
    emplace (⟨[(1, 10), (2, 20)]⟩ : flat_map Nat Nat) (2, 99)
      = try_emplace (⟨[(1, 10), (2, 20)]⟩ : flat_map Nat Nat) 2 99 :=
  flat_map_first_write_wins (⟨[(1, 10), (2, 20)]⟩ : flat_map Nat Nat) 2 99 20
    (by decide) (by decide)

/-- C10: the bulk constructor establishes the strictly-key-sorted,
duplicate-free invariant by sorting and removing equal-key runs;
`try_emplace` (inserting only at the key's bound and only when absent) and
`erase(key)` preserve it; and relative to it the lookups are correct:
`contains`/`find` find exactly the entries whose key is present,
`lower_bound`/`upper_bound` are the partition points of `< k` and `≤ k`,
and `equal_range` is the pair of both bounds. -/
theorem flat_map_sorted_invariant_and_lookup {κ μ : Type} [LinearOrder κ] :
    (∀ l : List (κ × μ), sortedInv (ofPairs l)) ∧
    (∀ (m : flat_map κ μ) (k : κ) (v : μ), sortedInv m →
      sortedInv (try_emplace m k v).1) ∧
    (∀ (m : flat_map κ μ) (k : κ), sortedInv m → sortedInv (erase_key m k).1) ∧
    (∀ (m : flat_map κ μ) (k : κ), sortedInv m →
      ((contains m k = true ↔ ∃ v0, (k, v0) ∈ m.m_container) ∧
       ∀ i, find m k = some i → ∃ v0, m.m_container[i]? = some (k, v0))) ∧
    (∀ (m : flat_map κ μ) (k : κ), sortedInv m →
      ∀ j e, m.m_container[j]? = some e →
        ((j < lower_bound m k ↔ e.1 < k) ∧ (j < upper_bound m k ↔ e.1 ≤ k))) ∧
    (∀ (m : flat_map κ μ) (k : κ),
      equal_range m k = (lower_bound m k, upper_bound m k)) := by
  refine ⟨ofPairs_sorted, try_emplace_sorted, erase_key_sorted, ?_, ?_, ?_⟩
  · intro m k hs
    obtain ⟨l⟩ := m
    constructor
    · constructor
      · intro hc
        rcases hg : l[lbIdx k l]? with _ | e
        · rw [contains, find_eq, hg] at hc
          have hc2 : (none : Option Nat).isSome = true := hc
          simp at hc2
        · by_cases heq : equal_op e k = true
          · have hek : e.1 = k := (equal_op_iff e k).mp heq
            have hmem : e ∈ l := mem_of_getElem_opt l _ e hg
            refine ⟨e.2, ?_⟩
            show ((k, e.2) : κ × μ) ∈ l
            rw [show ((k, e.2) : κ × μ) = e from by rw [← hek]]
            exact hmem
          · rw [contains, find_eq, hg] at hc
            have hc2 : (if equal_op e k = true then some (lbIdx k l) else none).isSome
                = true := hc
            rw [if_neg heq] at hc2
            simp at hc2
      · rintro ⟨v0, hmem⟩
        rw [contains, (find_spec_mem k v0 hs hmem).2]
        rfl
    · intro i hfind
      rcases hg : l[lbIdx k l]? with _ | e
      · rw [find_eq, hg] at hfind
        have hf2 : (none : Option Nat) = some i := hfind
        exact Option.noConfusion hf2
      · rw [find_eq, hg] at hfind
        have hf2 : (if equal_op e k = true then some (lbIdx k l) else none)
            = some i := hfind
        by_cases heq : equal_op e k = true
        · rw [if_pos heq] at hf2
          have hieq : i = lbIdx k l := (Option.some.inj hf2).symm
          subst hieq
          have hek : e.1 = k := (equal_op_iff e k).mp heq
          refine ⟨e.2, ?_⟩
          show l[lbIdx k l]? = some ((k, e.2) : κ × μ)
          rw [hg, show ((k, e.2) : κ × μ) = e from by rw [← hek]]
        · rw [if_neg heq] at hf2
          exact Option.noConfusion hf2
  · intro m k hs j e hj
    obtain ⟨l⟩ := m
    exact ⟨lbIdx_iff k hs j e hj, ubIdx_iff k hs j e hj⟩
  · intro m k
    obtain ⟨l⟩ := m
    show (lbIdx k l, lbIdx k l + ubIdx k (l.drop (lbIdx k l))) = (lbIdx k l, ubIdx k l)
    rw [equal_range_suffix k l]

/-- Witness for C10: on concrete maps over `Nat`, the bulk constructor
sorts and deduplicates `[(3, 30), (1, 10), (1, 99)]` into a strictly
sorted container, `contains` finds key 2 in `[(1, 10), (2, 20)]`, and
`equal_range` there is the pair of both bounds. -/
theorem flat_map_sorted_invariant_and_lookup_witness :
    sortedInv (ofPairs [((3 : Nat), (30 : Nat)), (1, 10), (1, 99)]) ∧
    contains (⟨[(1, 10), (2, 20)]⟩ : flat_map Nat Nat) 2 = true ∧
    equal_range (⟨[(1, 10), (2, 20)]⟩ : flat_map Nat Nat) 2
      = (lower_bound (⟨[(1, 10), (2, 20)]⟩ : flat_map Nat Nat) 2,
         upper_bound (⟨[(1, 10), (2, 20)]⟩ : flat_map Nat Nat) 2) :=
  ⟨flat_map_sorted_invariant_and_lookup.1 [((3 : Nat), (30 : Nat)), (1, 10), (1, 99)],
   ((flat_map_sorted_invariant_and_lookup.2.2.2.1
       (⟨[(1, 10), (2, 20)]⟩ : flat_map Nat Nat) 2 (by decide)).1).mpr
     ⟨20, by decide⟩,
   flat_map_sorted_invariant_and_lookup.2.2.2.2.2
     (⟨[(1, 10), (2, 20)]⟩ : flat_map Nat Nat) 2⟩

end flat_map
